import Mathlib

/-!
Shallow embedding of `src/index.js` (contentful-resolve-response).

JavaScript values are modelled by the inductive type `JValue`.  Records are
JSON-like trees; the private sentinel object `UNRESOLVED_LINK` is modelled by
the constructor `JValue.unres` (the source compares it by reference identity,
and no well-formed input contains it, which the theorems state as a
`noUnres` hypothesis).  In-place mutation with reference sharing is modelled
by an arena: the orchestrator keeps the flattened entity list as a
`List JValue` that is updated entry by entry, and a resolved link becomes a
handle `JValue.entry i` pointing at position `i` of that arena — the Lean
counterpart of a JavaScript object reference into the shared record set.

The one statement of the source that can raise past the public boundary
(`linkType.split(':')` when `linkType` is not a string, line 99) is modelled
with `Except Unit`; everything else is total, mirroring the `try`/`catch`
in `getIdsFromUrn`.
-/

inductive JValue where
  | null : JValue
  | bool : Bool → JValue
  | num : Int → JValue
  | str : String → JValue
  | arr : List JValue → JValue
  | obj : List (String × JValue) → JValue
  | entry : Nat → JValue
  | unres : JValue

mutual
/-- Structural equality test for `JValue` (used to build decidable
equality; the derive handler does not support this nested inductive). -/
def beqJV : JValue → JValue → Bool
  | .null, .null => true
  | .bool a, .bool b => a = b
  | .num a, .num b => a = b
  | .str a, .str b => a = b
  | .arr a, .arr b => beqJVList a b
  | .obj a, .obj b => beqJVFields a b
  | .entry a, .entry b => a = b
  | .unres, .unres => true
  | _, _ => false

def beqJVList : List JValue → List JValue → Bool
  | [], [] => true
  | a :: as, b :: bs => beqJV a b && beqJVList as bs
  | _, _ => false

def beqJVFields : List (String × JValue) → List (String × JValue) → Bool
  | [], [] => true
  | (ka, va) :: as, (kb, vb) :: bs => ka = kb && beqJV va vb && beqJVFields as bs
  | _, _ => false
end

mutual
theorem beqJV_iff : ∀ a b : JValue, beqJV a b = true ↔ a = b
  | .null, b => by cases b <;> simp [beqJV]
  | .bool x, b => by cases b <;> simp [beqJV]
  | .num x, b => by cases b <;> simp [beqJV]
  | .str x, b => by cases b <;> simp [beqJV]
  | .arr xs, b => by
      cases b <;> simp [beqJV]
      exact beqJVList_iff xs _
  | .obj fs, b => by
      cases b <;> simp [beqJV]
      exact beqJVFields_iff fs _
  | .entry i, b => by cases b <;> simp [beqJV]
  | .unres, b => by cases b <;> simp [beqJV]

theorem beqJVList_iff : ∀ a b : List JValue, beqJVList a b = true ↔ a = b
  | [], b => by cases b <;> simp [beqJVList]
  | x :: xs, b => by
      cases b with
      | nil => simp [beqJVList]
      | cons y ys =>
          simp only [beqJVList, Bool.and_eq_true, List.cons.injEq]
          exact and_congr (beqJV_iff x y) (beqJVList_iff xs ys)

theorem beqJVFields_iff :
    ∀ a b : List (String × JValue), beqJVFields a b = true ↔ a = b
  | [], b => by cases b <;> simp [beqJVFields]
  | (k, v) :: xs, b => by
      cases b with
      | nil => simp [beqJVFields]
      | cons y ys =>
          obtain ⟨k', v'⟩ := y
          simp only [beqJVFields, Bool.and_eq_true, List.cons.injEq,
            Prod.mk.injEq, decide_eq_true_eq]
          rw [beqJV_iff v v', beqJVFields_iff xs ys, and_assoc]
end

instance : DecidableEq JValue := fun a b =>
  decidable_of_iff (beqJV a b = true) (beqJV_iff a b)

deriving instance DecidableEq for Except

/-- Field lookup in an object's field list (JS property access on a plain
object; first binding wins, JS objects cannot carry duplicate keys). -/
def lookupField : List (String × JValue) → String → Option JValue
  | [], _ => none
  | (k, v) :: fs, key => if k = key then some v else lookupField fs key

/-- `v[key]` for a JS value: `undefined` (`none`) on non-objects. -/
def jsGet (v : JValue) (key : String) : Option JValue :=
  match v with
  | .obj fs => lookupField fs key
  | _ => none

/-- JS truthiness of a possibly-`undefined` value. -/
def truthy : Option JValue → Bool
  | none => false
  | some .null => false
  | some (.bool b) => b
  | some (.num n) => n != 0
  | some (.str s) => s != ""
  | some (.arr _) => true
  | some (.obj _) => true
  | some (.entry _) => true
  | some .unres => true

mutual
/-- JS template-literal stringification of a value. -/
def jvStr : JValue → String
  | .null => "null"
  | .bool true => "true"
  | .bool false => "false"
  | .num n => toString n
  | .str s => s
  | .arr xs => String.intercalate "," (jvStrElems xs)
  | .obj _ => "[object Object]"
  | .entry _ => "[object Object]"
  | .unres => "[object Object]"

/-- `Array.prototype.join`: `null`/`undefined` elements become empty. -/
def jvStrElems : List JValue → List String
  | [] => []
  | x :: xs => (match x with | .null => "" | y => jvStr y) :: jvStrElems xs
end

/-- Stringification of a possibly-`undefined` value (as in `${x}`). -/
def jsToStr : Option JValue → String
  | none => "undefined"
  | some v => jvStr v

/-- `isLink` (src/index.js line 10): `object?.sys?.type === 'Link'`. -/
def isLink (v : JValue) : Bool :=
  match (jsGet v "sys").bind (jsGet · "type") with
  | some (.str s) => s = "Link"
  | _ => false

/-- `isResourceLink` (line 17): `object?.sys?.type === 'ResourceLink'`. -/
def isResourceLink (v : JValue) : Bool :=
  match (jsGet v "sys").bind (jsGet · "type") with
  | some (.str s) => s = "ResourceLink"
  | _ => false

/-- The predicate the orchestrator passes to the walker (line 222). -/
def isLinkNode (v : JValue) : Bool := isLink v || isResourceLink v

/-- `makeEntityMapKeys` (lines 32-38): one or two lookup keys for a `sys`
identity block. -/
def makeEntityMapKeys (sysv : JValue) : List String :=
  let spaceSys := (jsGet sysv "space").bind (jsGet · "sys")
  let envSys := (jsGet sysv "environment").bind (jsGet · "sys")
  let global := jsToStr (jsGet sysv "type") ++ "!" ++ jsToStr (jsGet sysv "id")
  if truthy spaceSys && truthy envSys then
    [global,
      jsToStr (spaceSys.bind (jsGet · "id")) ++ "!" ++
        jsToStr (envSys.bind (jsGet · "id")) ++ "!" ++ global]
  else
    [global]

/-- Keys an entity is registered under (`makeEntityMapKeys(entity.sys)`). -/
def entityKeys (e : JValue) : List String :=
  makeEntityMapKeys ((jsGet e "sys").getD .null)

/-- The entity map as an association list, values being arena positions.
`new Map(pairs)` processes pairs left to right with later pairs
overwriting earlier ones, so lookup is a last-wins fold. -/
def emGet (m : List (String × Nat)) (k : String) : Option Nat :=
  m.foldl (fun acc p => if p.1 = k then some p.2 else acc) none

/-- `allEntries.flatMap((entity) => makeEntityMapKeys(entity.sys).map((key) =>
[key, entity]))` (lines 211-213), with entities as arena positions. -/
def buildEM : Nat → List JValue → List (String × Nat)
  | _, [] => []
  | i, e :: es => (entityKeys e).map (fun k => (k, i)) ++ buildEM (i + 1) es

/-- `lookupInEntityMap` (lines 50-58).  Arguments are the fields of the
`linkData` record, each possibly `undefined`. -/
def lookupInEntityMap (m : List (String × Nat))
    (entryId linkType spaceId environmentId : Option JValue) : Option Nat :=
  if truthy spaceId && truthy environmentId then
    emGet m (jsToStr spaceId ++ "!" ++ jsToStr environmentId ++ "!" ++
      jsToStr linkType ++ "!" ++ jsToStr entryId)
  else
    emGet m (jsToStr linkType ++ "!" ++ jsToStr entryId)

/-!
## The URN decoder (`getIdsFromUrn`, lines 65-80)

The source matches the anchored JavaScript regular expression
`^(.*):spaces\/([^\/]+)(?:\/environments\/([^\/]+))?\/entries\/([^\/]+)$`.
Its behaviour, transcribed:

* `(.*)` is greedy and `.` does not match a line terminator
  (`'\n'`, `'\r'`, U+2028, U+2029), so the engine tries every occurrence of
  the literal `":spaces/"` whose preceding text is line-terminator free,
  from the rightmost occurrence leftwards, and commits to the first one
  whose remaining text matches the rest of the pattern.
* After `":spaces/"`, the remaining text must consist of `'/'`-separated
  segments matching either `sid "entries" eid` (optional group skipped,
  `environmentId` defaulting to `"master"` at the destructuring on line 69)
  or `sid "environments" env "entries" eid`, each captured segment being
  one or more non-`'/'` characters.  Because `[^/]+` cannot cross a `'/'`
  and the two literals `"environments"`/`"entries"` differ, this tail
  match is deterministic: no other backtracking succeeds.

`cands` enumerates the split positions in left-to-right order (prefix
lengths increasing), `parseTail` performs the deterministic tail match, and
taking the last success implements the greedy choice of `(.*)`.
-/

/-- The decoded identifiers `{spaceId, environmentId, entryId}`. -/
structure UrnIds where
  spaceId : String
  environmentId : String
  entryId : String
deriving DecidableEq

/-- Characters the JS regex `.` does not match (line terminators). -/
def isLineTerm (c : Char) : Bool :=
  c = '\n' || c = '\r' || c = Char.ofNat 0x2028 || c = Char.ofNat 0x2029

/-- The literal `":spaces/"` of the pattern, as characters. -/
def patChars : List Char := (":spaces/").data

/-- All decompositions `l = p ++ ":spaces/" ++ t`, listed with `p` of
increasing length. -/
def cands : List Char → List (List Char × List Char)
  | [] => []
  | c :: cs =>
    let rest := (cands cs).map (fun pt => (c :: pt.1, pt.2))
    if patChars.isPrefixOf (c :: cs) then
      ([], (c :: cs).drop patChars.length) :: rest
    else rest

/-- Splits a character list at `'/'` (every `sep`-free run, in order;
never returns the empty list). -/
def splitSeg : List Char → List (List Char)
  | [] => [[]]
  | c :: cs =>
    if c = '/' then [] :: splitSeg cs
    else
      match splitSeg cs with
      | s :: ss => (c :: s) :: ss
      | [] => [[c]]

/-- The deterministic match of `([^/]+)(?:\/environments\/([^\/]+))?` `\/entries\/([^\/]+)$`
against the text after `":spaces/"`, with the `'master'` default of line 69. -/
def parseTail (t : List Char) : Option UrnIds :=
  match splitSeg t with
  | [sid, mid, eid] =>
    if sid ≠ [] ∧ mid = ("entries").data ∧ eid ≠ [] then
      some ⟨String.mk sid, "master", String.mk eid⟩
    else none
  | [sid, envLit, env, entLit, eid] =>
    if sid ≠ [] ∧ envLit = ("environments").data ∧ env ≠ [] ∧
        entLit = ("entries").data ∧ eid ≠ [] then
      some ⟨String.mk sid, String.mk env, String.mk eid⟩
    else none
  | _ => none

/-- `getIdsFromUrn` (lines 65-80): the regex match described above; on
failure the `catch` of line 76 yields `undefined`, modelled as `none`.
The `!spaceId || !entryId` guard of line 71 can only fire when the match
itself failed (both groups are `[^/]+`, hence non-empty), so it is
subsumed by the `none` case. -/
def getIdsFromUrn (s : String) : Option UrnIds :=
  ((cands s.data).filterMap
    (fun pt => if pt.1.all (fun c => !isLineTerm c) then parseTail pt.2 else none)).getLast?

/-- `getIdsFromUrn` as called on the raw `sys.urn` value: `urn.match`
raises a `TypeError` on a non-string, which the `catch` turns into
`undefined`. -/
def getIdsFromUrnVal : Option JValue → Option UrnIds
  | some (.str s) => getIdsFromUrn s
  | _ => none

/-!
## Link resolution and the graph walker
-/

/-- Splits a string at a separator character, as `String.prototype.split`
with a single-character separator does (`"".split` gives `[""]`). -/
def splitChar (sep : Char) (s : String) : List String :=
  (splitSeg' sep s.data).map String.mk
where
  /-- character-level splitter, like `splitSeg` but with a chosen separator. -/
  splitSeg' (sep : Char) : List Char → List (List Char)
    | [] => [[]]
    | c :: cs =>
      if c = sep then [] :: splitSeg' sep cs
      else
        match splitSeg' sep cs with
        | s :: ss => (c :: s) :: ss
        | [] => [[c]]

/-- `lookup || UNRESOLVED_LINK` (lines 101-108, 112): entity-map values are
records, hence truthy, so the fallback triggers exactly on a miss. -/
def lookupToVal : Option Nat → JValue
  | some i => .entry i
  | none => .unres

/-- `getResolvedLink` (lines 88-113).  The only uncaught throw of the
module is modelled here: with `type === 'ResourceLink'`, a successfully
decoded URN and a non-string `linkType`, line 99 (`linkType.split(':')`)
raises a `TypeError`. -/
def getResolvedLink (m : List (String × Nat)) (link : JValue) :
    Except Unit JValue :=
  let sys := jsGet link "sys"
  let type := sys.bind (jsGet · "type")
  let linkType := sys.bind (jsGet · "linkType")
  match type with
  | some (.str "ResourceLink") =>
    match getIdsFromUrnVal (sys.bind (jsGet · "urn")) with
    | none => .ok .unres
    | some ids =>
      match linkType with
      | some (.str lt) =>
        let extracted : Option JValue := ((splitChar ':' lt).get? 1).map .str
        .ok (lookupToVal (lookupInEntityMap m (some (.str ids.entryId))
          extracted (some (.str ids.spaceId)) (some (.str ids.environmentId))))
      | _ => .error ()
  | _ =>
    .ok (lookupToVal (lookupInEntityMap m (sys.bind (jsGet · "id"))
      linkType none none))

/-- `normalizeLink` (lines 167-173): the `===` test against the private
sentinel is structural equality with `.unres`, which resolution results
can only be through the sentinel itself. -/
def normalizeLink (m : List (String × Nat)) (link : JValue)
    (removeUnresolved : Bool) : Except Unit JValue := do
  let resolvedLink ← getResolvedLink m link
  match resolvedLink with
  | .unres => .ok (if removeUnresolved then .unres else link)
  | r => .ok r

/-- `val !== UNRESOLVED_LINK`: everything but the sentinel is kept. -/
def keepVal : JValue → Bool
  | .unres => false
  | _ => true

/-- `cleanUpLinks` (lines 120-132): filter the sentinel out of an array,
delete object fields holding it. -/
def cleanUpLinks : JValue → JValue
  | .arr xs => .arr (xs.filter keepVal)
  | .obj fs => .obj (fs.filter (fun kv => keepVal kv.2))
  | v => v

mutual
/-- `walkMutate` (lines 142-158).  The predicate is checked first; a
matching node is replaced by the mutator's output, which is not walked
(the resolved target's own fields get their own turn in the
orchestrator's pass).  Arrays and objects recurse element-wise, then
are cleaned when `removeUnresolved` is set. -/
def walkMutate (pred : JValue → Bool) (mf : JValue → Except Unit JValue)
    (removeUnresolved : Bool) (v : JValue) : Except Unit JValue :=
  if pred v then mf v
  else
    match v with
    | .arr xs => do
        let ys ← walkList pred mf removeUnresolved xs
        .ok (if removeUnresolved then cleanUpLinks (.arr ys) else .arr ys)
    | .obj fs => do
        let gs ← walkFields pred mf removeUnresolved fs
        .ok (if removeUnresolved then cleanUpLinks (.obj gs) else .obj gs)
    | w => .ok w

def walkList (pred : JValue → Bool) (mf : JValue → Except Unit JValue)
    (removeUnresolved : Bool) : List JValue → Except Unit (List JValue)
  | [] => .ok []
  | x :: xs => do
      let y ← walkMutate pred mf removeUnresolved x
      let ys ← walkList pred mf removeUnresolved xs
      .ok (y :: ys)

def walkFields (pred : JValue → Bool) (mf : JValue → Except Unit JValue)
    (removeUnresolved : Bool) :
    List (String × JValue) → Except Unit (List (String × JValue))
  | [] => .ok []
  | (k, x) :: xs => do
      let y ← walkMutate pred mf removeUnresolved x
      let ys ← walkFields pred mf removeUnresolved xs
      .ok ((k, y) :: ys)
end

/-!
## Entry projection, `Object.assign`, and the orchestrator
-/

/-- One step of `makeEntryObject`'s reduce (lines 186-191): copy the
entry-point field when the item has it, skip it otherwise. -/
def projStep (item : JValue) (acc : List (String × JValue)) (k : String) :
    List (String × JValue) :=
  match jsGet item k with
  | some v => acc ++ [(k, v)]
  | none => acc

/-- `makeEntryObject` (lines 181-192): with an array of entry points,
the sub-object of the fields present on the item, in entry-point order;
otherwise the item itself. -/
def makeEntryObject (item : JValue) : Option (List String) → JValue
  | none => item
  | some eps => .obj (eps.foldl (projStep item) [])

/-- `target[k] = v` on an object's field list: replace the binding in
place, else append. -/
def setField : List (String × JValue) → String → JValue → List (String × JValue)
  | [], key, v => [(key, v)]
  | (k, w) :: fs, key, v =>
    if k = key then (k, v) :: fs else (k, w) :: setField fs key v

/-- `Object.assign(target, source)` on two field lists. -/
def mergeFields (tf : List (String × JValue)) (sf : List (String × JValue)) :
    List (String × JValue) :=
  sf.foldl (fun acc kv => setField acc kv.1 kv.2) tf

/-- `Object.assign(item, walked)` (lines 218-226).  The walked value is the
item's own (possibly projected) object, the sentinel (which has no own
properties, so nothing is copied), or — when the item itself satisfied the
link predicate — a resolved record, whose current fields are read from the
arena. -/
def objAssign (arena : List JValue) (target src : JValue) : JValue :=
  match target with
  | .obj tf =>
    match src with
    | .obj sf => .obj (mergeFields tf sf)
    | .entry j =>
      match arena.get? j with
      | some (.obj sf) => .obj (mergeFields tf sf)
      | _ => target
    | _ => target
  | _ => target

/-- One turn of the `allEntries.forEach` loop (lines 215-227) for the
record at arena position `i`.

Without `itemEntryPoints`, `entryObject` *is* the item (`makeEntryObject`
returns it), the walk mutates it in place (including the field deletions
of `cleanUpLinks`) and `Object.assign(item, item)` is a no-op — so the
item becomes the walked value.  The exception is an item that itself
satisfies the link predicate: then the walk returns the mutator's output,
a different object, and `Object.assign` merges its fields onto the item.
With `itemEntryPoints`, `entryObject` is a fresh object and
`Object.assign(item, entryObject)` merges the walked (possibly pruned)
projection back; keys `cleanUpLinks` deleted from the projection are
simply not copied, so the item keeps its original value for them. -/
def processOne (m : List (String × Nat)) (removeUnresolved : Bool)
    (eps : Option (List String)) (arena : List JValue) (i : Nat) :
    Except Unit (List JValue) :=
  match arena.get? i with
  | none => .ok arena
  | some item => do
    let entryObject := makeEntryObject item eps
    let walked ← walkMutate isLinkNode (fun l => normalizeLink m l removeUnresolved)
      removeUnresolved entryObject
    let newItem :=
      match eps with
      | none => if isLinkNode item then objAssign arena item walked else walked
      | some _ => objAssign arena item walked
    .ok (arena.set i newItem)

/-- The whole `forEach` pass, processing arena positions in order. -/
def runPass (m : List (String × Nat)) (removeUnresolved : Bool)
    (eps : Option (List String)) : List Nat → List JValue → Except Unit (List JValue)
  | [], arena => .ok arena
  | i :: is, arena => do
      let arena' ← processOne m removeUnresolved eps arena i
      runPass m removeUnresolved eps is arena'

/-- `[...responseClone.items, ...allIncludes].filter((entity) =>
Boolean(entity.sys))` (lines 208-209). -/
def hasSys (e : JValue) : Bool := truthy (jsGet e "sys")

/-- The response shape of the public entry point: `items` may be absent
(`!response.items` short-circuits), `includes` is a kind-to-list mapping
whose values are flattened in insertion order. -/
structure ContentfulResponse where
  items : Option (List JValue) := none
  includes : List (String × List JValue) := []

/-- The recognized options (line 202's `options` parameter). -/
structure ResolveOptions where
  removeUnresolved : Bool := false
  itemEntryPoints : Option (List String) := none

/-- The flattened, `sys`-filtered record list the index and the pass run
over (lines 208-209). -/
def allEntriesOf (r : ContentfulResponse) : List JValue :=
  ((r.items.getD []) ++ r.includes.flatMap (fun kv => kv.2)).filter hasSys

/-- The entity index of a response (lines 211-213). -/
def entityMapOf (r : ContentfulResponse) : List (String × Nat) :=
  buildEM 0 (allEntriesOf r)

/-- Rebuilds the returned `items` array: elements with a truthy `sys` are
the (mutated) arena records, in order; the others were never part of the
pass and stay as they were. -/
def takeItems : List JValue → List JValue → List JValue
  | [], _ => []
  | it :: its, arena =>
    if hasSys it then
      match arena with
      | a :: rest => a :: takeItems its rest
      | [] => it :: takeItems its []
    else it :: takeItems its arena

/-- The result of a resolution pass: the final arena (the live, mutated
record objects) and the returned `items` array, whose `JValue.entry`
handles point into `entries`. -/
structure ResolveResult where
  entries : List JValue
  items : List JValue
deriving DecidableEq

/-- `resolveResponse` (lines 202-230).  The deep clone of line 207 is the
identity on immutable trees; `includes` is discarded from the output. -/
def resolveResponse (r : ContentfulResponse) (options : ResolveOptions) :
    Except Unit ResolveResult :=
  match r.items with
  | none => .ok ⟨[], []⟩
  | some its => do
    let entries := allEntriesOf r
    let m := buildEM 0 entries
    let final ← runPass m options.removeUnresolved options.itemEntryPoints
      (List.range entries.length) entries
    .ok ⟨final, takeItems its final⟩

/-!
## Observation and well-formedness predicates
-/

/-- Applies a materializer to every list element. -/
def matList (g : JValue → Option JValue) : List JValue → Option (List JValue)
  | [] => some []
  | x :: xs => do
      let y ← g x
      let ys ← matList g xs
      some (y :: ys)

/-- Applies a materializer to every field value. -/
def matFields (g : JValue → Option JValue) :
    List (String × JValue) → Option (List (String × JValue))
  | [] => some []
  | (k, x) :: xs => do
      let y ← g x
      let ys ← matFields g xs
      some ((k, y) :: ys)

/-- Dereferences `JValue.entry` handles against an arena: the value of the
returned object graph as an observer sees it.  `fuel` bounds the
observation depth; `none` means the graph is deeper (possibly cyclic)
than `fuel`. -/
def materialize : Nat → List JValue → JValue → Option JValue
  | 0, _, _ => none
  | f + 1, arena, .entry i => (arena.get? i).bind (fun e => materialize f arena e)
  | f + 1, arena, .arr xs => (matList (fun x => materialize f arena x) xs).map .arr
  | f + 1, arena, .obj fs => (matFields (fun x => materialize f arena x) fs).map .obj
  | _ + 1, _, v => some v

mutual
/-- The private sentinel does not occur in the value: true of every value
a caller can hand in — `UNRESOLVED_LINK` never escapes the module. -/
def noUnres : JValue → Bool
  | .unres => false
  | .arr xs => noUnresList xs
  | .obj fs => noUnresFields fs
  | _ => true

def noUnresList : List JValue → Bool
  | [] => true
  | x :: xs => noUnres x && noUnresList xs

def noUnresFields : List (String × JValue) → Bool
  | [] => true
  | (_, x) :: xs => noUnres x && noUnresFields xs
end

mutual
/-- No arena handle occurs in the value: true of every fresh (JSON-shaped)
input, where no link has been resolved yet. -/
def noEntryRef : JValue → Bool
  | .entry _ => false
  | .arr xs => noEntryRefList xs
  | .obj fs => noEntryRefFields fs
  | _ => true

def noEntryRefList : List JValue → Bool
  | [] => true
  | x :: xs => noEntryRef x && noEntryRefList xs

def noEntryRefFields : List (String × JValue) → Bool
  | [] => true
  | (_, x) :: xs => noEntryRef x && noEntryRefFields xs
end

/-- A fresh input value: no sentinel, no arena handle. -/
def wfInput (v : JValue) : Bool := noUnres v && noEntryRef v

mutual
/-- No node of the value satisfies the walker's link predicate.  Only an
object can satisfy `isLinkNode`, so the other constructors just recurse. -/
def linkFree : JValue → Bool
  | .arr xs => linkFreeList xs
  | .obj fs => !isLinkNode (.obj fs) && linkFreeFields fs
  | _ => true

def linkFreeList : List JValue → Bool
  | [] => true
  | x :: xs => linkFree x && linkFreeList xs

def linkFreeFields : List (String × JValue) → Bool
  | [] => true
  | (_, x) :: xs => linkFree x && linkFreeFields xs
end

mutual
/-- Every node of the value that satisfies the link predicate resolves to
the sentinel against `m` (the walker does not look below a matched node,
so nothing below one is inspected).  Only objects can match the
predicate. -/
def allLinksMiss (m : List (String × Nat)) : JValue → Bool
  | .arr xs => allLinksMissList m xs
  | .obj fs =>
    if isLinkNode (.obj fs) then
      match getResolvedLink m (.obj fs) with
      | .ok .unres => true
      | _ => false
    else allLinksMissFields m fs
  | _ => true

def allLinksMissList (m : List (String × Nat)) : List JValue → Bool
  | [] => true
  | x :: xs => allLinksMiss m x && allLinksMissList m xs

def allLinksMissFields (m : List (String × Nat)) : List (String × JValue) → Bool
  | [] => true
  | (_, x) :: xs => allLinksMiss m x && allLinksMissFields m xs
end

mutual
/-- Object keys are duplicate-free throughout the value (every plain JS
object satisfies this). -/
def uniqKeys : JValue → Bool
  | .arr xs => uniqKeysList xs
  | .obj fs => ((fs.map Prod.fst).Nodup : Bool) && uniqKeysFields fs
  | _ => true

def uniqKeysList : List JValue → Bool
  | [] => true
  | x :: xs => uniqKeys x && uniqKeysList xs

def uniqKeysFields : List (String × JValue) → Bool
  | [] => true
  | (_, x) :: xs => uniqKeys x && uniqKeysFields xs
end

/-!
## Concrete inputs used by the evaluation theorems
-/

/-- A plain `sys` identity block with a kind and an id. -/
def mkSysJV (ty id : String) : JValue :=
  .obj [("type", .str ty), ("id", .str id)]

/-- A direct-link placeholder node `{sys: {type: 'Link', linkType, id}}`. -/
def mkLinkJV (lt id : String) : JValue :=
  .obj [("sys", .obj [("type", .str "Link"), ("linkType", .str lt), ("id", .str id)])]

/-- A record whose identity block carries space and environment scope. -/
def mkScopedSysJV (ty id spaceId envId : String) : JValue :=
  .obj [("type", .str ty), ("id", .str id),
    ("space", .obj [("sys", mkSysJV "Space" spaceId)]),
    ("environment", .obj [("sys", mkSysJV "Environment" envId)])]

def c1Rec0 : JValue := .obj [("sys", mkScopedSysJV "Entry" "x" "s1" "e1")]
def c1Rec1 : JValue := .obj [("sys", mkScopedSysJV "Entry" "x" "s2" "e2")]
def c1Response : ContentfulResponse := ⟨some [c1Rec0, c1Rec1], []⟩

def c8Rec0 : JValue := .obj [("sys", mkSysJV "Entry" "x")]
def c8Rec1 : JValue := .obj [("sys", mkSysJV "Entry" "x"), ("v", .num 2)]
def c8Response : ContentfulResponse := ⟨some [c8Rec0, c8Rec1], []⟩

def c3DeadLink : JValue := mkLinkJV "Entry" "missing"
def c3Item : JValue := .obj [("sys", mkSysJV "Entry" "a"), ("f", c3DeadLink)]
def c3Response : ContentfulResponse := ⟨some [c3Item], []⟩
def c3Options : ResolveOptions :=
  { removeUnresolved := true, itemEntryPoints := some ["f"] }

def c9Item : JValue := .obj [("sys", mkSysJV "Entry" "a"), ("f", mkLinkJV "Entry" "missing")]
def c9Response : ContentfulResponse := ⟨some [c9Item], []⟩

def c4BadResourceLink : JValue :=
  .obj [("sys", .obj [("type", .str "ResourceLink"),
    ("urn", .str "crn:spaces/s/entries/e")])]
def c4Response : ContentfulResponse :=
  ⟨some [.obj [("sys", mkSysJV "Entry" "a"), ("f", c4BadResourceLink)]], []⟩

def c6ItemA : JValue := .obj [("sys", mkSysJV "Entry" "a"), ("f", mkLinkJV "Link" "l1")]
def c6RecL : JValue :=
  .obj [("sys", .obj [("type", .str "Link"), ("linkType", .str "Entry"),
    ("id", .str "l1")])]
def c6Response : ContentfulResponse := ⟨some [c6ItemA], [("X", [c6RecL])]⟩
def c6Options : ResolveOptions := { removeUnresolved := true }
def c6FirstItems : List JValue :=
  [.obj [("sys", mkSysJV "Entry" "a"), ("f", c6RecL)]]

/-!
## Claim theorems: concrete evaluations
-/

/-- Claim C4 (code_bug evidence): on the well-typed response
`{items: [{sys: {type:'Entry', id:'a'}, f: {sys: {type:'ResourceLink',
urn:'crn:spaces/s/entries/e'}}}]}` — a ResourceLink with a decodable URN
but no `linkType` — `resolveResponse` raises (`linkType.split` on
`undefined`, line 99) instead of returning normally, contradicting the
claim that the entry point never throws for well-typed input whatever a
ResourceLink's `sys.linkType` contains. -/
theorem C4_throws_on_resource_link_without_linkType :
    resolveResponse c4Response {} = .error () := by decide

/-- Claim C1 (counterexample): record 0 carries space `s1` and environment
`e1` and qualifies for the global key `"Entry!x"` and the scoped key
`"s1!e1!Entry!x"`, yet the entity index maps the global key to record 1
(the `Map` constructor is last-wins) and the scoped key to record 0 — not
to the same record reference, refuting the claim as stated. -/
theorem C1_counterexample :
    (allEntriesOf c1Response).get? 0 = some c1Rec0 ∧
    entityKeys c1Rec0 = ["Entry!x", "s1!e1!Entry!x"] ∧
    emGet (entityMapOf c1Response) "Entry!x" = some 1 ∧
    emGet (entityMapOf c1Response) "s1!e1!Entry!x" = some 0 := by decide

/-- Claim C8 (counterexample): record 0 qualifies only for the key
`"Entry!x"`, but record 1 shares that key and is registered last, so
record 0 is registered under no key at all — not "exactly once under each
identity key it qualifies for". -/
theorem C8_counterexample :
    (allEntriesOf c8Response).get? 0 = some c8Rec0 ∧
    entityKeys c8Rec0 = ["Entry!x"] ∧
    emGet (entityMapOf c8Response) "Entry!x" = some 1 ∧
    emGet (entityMapOf c8Response) "Entry!x" ≠ some 0 := by decide

/-- Claim C3 (counterexample): with `removeUnresolved: true` and
`itemEntryPoints: ['f']`, the unresolvable link in the object field `f`
is *not* deleted: `cleanUpLinks` deletes it from the projected sub-object
only, and `Object.assign` cannot transport a deletion, so the returned
item still holds the original link placeholder in `f`. -/
theorem C3_counterexample :
    getResolvedLink (entityMapOf c3Response) c3DeadLink = .ok .unres ∧
    resolveResponse c3Response c3Options = .ok ⟨[c3Item], [c3Item]⟩ ∧
    jsGet c3Item "f" = some c3DeadLink := by decide

/-- Claim C9 (counterexample): with `removeUnresolved: true` and no
`itemEntryPoints`, the record does *not* retain all of its original
top-level keys: the unresolvable link in field `f` is deleted from the
record itself. -/
theorem C9_counterexample :
    jsGet c9Item "f" = some (mkLinkJV "Entry" "missing") ∧
    resolveResponse c9Response { removeUnresolved := true } =
      .ok ⟨[.obj [("sys", mkSysJV "Entry" "a")]],
           [.obj [("sys", mkSysJV "Entry" "a")]]⟩ := by decide

/-- Claim C6 (counterexample): resolving `c6Response` (whose include `c6RecL`
is itself a link-shaped record) with `removeUnresolved: true` yields items
whose observed value is `c6FirstItems`; running `resolveResponse` again over
that already-resolved result deletes the `f` field — the resolved value
still satisfies the link predicate, is re-resolved against an index that no
longer contains the (discarded) include, misses, and is pruned.  The second
pass therefore does change the result, refuting idempotence as claimed. -/
theorem C6_counterexample :
    (∃ res1, resolveResponse c6Response c6Options = .ok res1 ∧
      matList (fun v => materialize 10 res1.entries v) res1.items =
        some c6FirstItems) ∧
    (∃ res2, resolveResponse ⟨some c6FirstItems, []⟩ c6Options = .ok res2 ∧
      res2.items ≠ c6FirstItems ∧
      matList (fun v => materialize 10 res2.entries v) res2.items ≠
        some c6FirstItems) := by
  refine ⟨⟨⟨[.obj [("sys", mkSysJV "Entry" "a"), ("f", .entry 1)], c6RecL],
    [.obj [("sys", mkSysJV "Entry" "a"), ("f", .entry 1)]]⟩, by decide, by decide⟩,
    ⟨⟨[.obj [("sys", mkSysJV "Entry" "a")]], [.obj [("sys", mkSysJV "Entry" "a")]]⟩,
    by decide, by decide, by decide⟩⟩

/-!
## Lemmas about the entity index
-/

theorem emGet_foldl (k : String) :
    ∀ (m : List (String × Nat)) (a : Option Nat),
      m.foldl (fun acc p => if p.1 = k then some p.2 else acc) a =
        Option.or (emGet m k) a := by
  intro m
  induction m with
  | nil => intro a; simp [emGet]
  | cons p m ih =>
      intro a
      show List.foldl _ (if p.1 = k then some p.2 else a) m = _
      rw [ih]
      show _ = Option.or (List.foldl _ (if p.1 = k then some p.2 else none) m) a
      rw [ih]
      cases hm : emGet m k with
      | some v => simp [Option.or]
      | none =>
          by_cases hp : p.1 = k <;> simp [hp, Option.or]

theorem emGet_append (k : String) (l₁ l₂ : List (String × Nat)) :
    emGet (l₁ ++ l₂) k = Option.or (emGet l₂ k) (emGet l₁ k) := by
  show List.foldl _ none (l₁ ++ l₂) = _
  rw [List.foldl_append]
  exact emGet_foldl k l₂ (emGet l₁ k)

theorem emGet_keys (k : String) (i : Nat) :
    ∀ ks : List String,
      emGet (ks.map (fun k' => (k', i))) k = if k ∈ ks then some i else none := by
  intro ks
  induction ks with
  | nil => simp [emGet]
  | cons k' ks ih =>
      show List.foldl _ (if k' = k then some i else none) (ks.map _) = _
      rw [emGet_foldl]
      rw [ih]
      by_cases hk : k ∈ ks
      · rw [if_pos hk, if_pos (List.mem_cons_of_mem _ hk)]
        rfl
      · rw [if_neg hk]
        by_cases hk' : k' = k
        · subst hk'
          rw [if_pos (List.mem_cons_self _ _), if_pos rfl]
          rfl
        · rw [if_neg hk',
            if_neg (fun h => (List.mem_cons.mp h).elim (fun h' => hk' h'.symm) hk)]
          rfl

theorem emGet_buildEM_none (k : String) :
    ∀ (es : List JValue) (i : Nat),
      (∀ e ∈ es, k ∉ entityKeys e) → emGet (buildEM i es) k = none := by
  intro es
  induction es with
  | nil => intro i _; simp [buildEM, emGet]
  | cons e es ih =>
      intro i h
      rw [buildEM, emGet_append, emGet_keys,
        if_neg (h e (List.mem_cons_self e es)),
        ih (i + 1) (fun e' he' => h e' (List.mem_cons_of_mem e he'))]
      rfl

theorem emGet_buildEM_some (k : String) :
    ∀ (es : List JValue) (i j : Nat) (e : JValue),
      es.get? j = some e → k ∈ entityKeys e →
      (∀ j' e', j < j' → es.get? j' = some e' → k ∉ entityKeys e') →
      emGet (buildEM i es) k = some (i + j) := by
  intro es
  induction es with
  | nil => intro i j e h; simp at h
  | cons e0 es ih =>
      intro i j e hget hk hlater
      rw [buildEM, emGet_append]
      cases j with
      | zero =>
          have he : e = e0 := by simpa using hget.symm
          subst he
          have hnone : emGet (buildEM (i + 1) es) k = none := by
            apply emGet_buildEM_none
            intro e' he'
            obtain ⟨j', hj'⟩ := List.get?_of_mem he'
            exact hlater (j' + 1) e' (Nat.succ_pos j') (by simpa using hj')
          rw [hnone, emGet_keys, if_pos hk]
          rfl
      | succ j' =>
          have : emGet (buildEM (i + 1) es) k = some (i + 1 + j') :=
            ih (i + 1) j' e (by simpa using hget) hk
              (fun j'' e'' hlt hg =>
                hlater (j'' + 1) e'' (Nat.succ_lt_succ hlt) (by simpa using hg))
          rw [this]
          have : i + 1 + j' = i + (j' + 1) := by omega
          rw [this]
          rfl

theorem emGet_buildEM_mem (k : String) :
    ∀ (es : List JValue) (i v : Nat),
      emGet (buildEM i es) k = some v →
      ∃ j e, es.get? j = some e ∧ v = i + j ∧ k ∈ entityKeys e := by
  intro es
  induction es with
  | nil => intro i v h; simp [buildEM, emGet] at h
  | cons e0 es ih =>
      intro i v h
      rw [buildEM, emGet_append] at h
      cases hr : emGet (buildEM (i + 1) es) k with
      | some w =>
          rw [hr] at h
          have hw : w = v := by
            have : some w = some v := h
            injection this
          subst hw
          obtain ⟨j, e, hj, hv, hk⟩ := ih (i + 1) w hr
          exact ⟨j + 1, e, by simpa using hj, by omega, hk⟩
      | none =>
          rw [hr] at h
          have h' : (if k ∈ entityKeys e0 then some i else none) = some v := by
            rw [← emGet_keys k i (entityKeys e0)]
            exact h
          by_cases hk : k ∈ entityKeys e0
          · rw [if_pos hk] at h'
            have hi : i = v := by injection h'
            exact ⟨0, e0, rfl, by omega, hk⟩
          · rw [if_neg hk] at h'
            exact absurd h' (by simp)

/-!
## Lemmas about link resolution
-/

theorem lookupInEntityMap_global (m : List (String × Nat)) (eid lt : Option JValue) :
    lookupInEntityMap m eid lt none none =
      emGet m (jsToStr lt ++ "!" ++ jsToStr eid) := rfl

theorem truthy_str {s : String} (h : s ≠ "") : truthy (some (.str s)) = true := by
  simp [truthy, h]

theorem lookupInEntityMap_scoped (m : List (String × Nat)) (eid lt : Option JValue)
    (sid env : String) (hs : sid ≠ "") (he : env ≠ "") :
    lookupInEntityMap m eid lt (some (.str sid)) (some (.str env)) =
      emGet m (sid ++ "!" ++ env ++ "!" ++ jsToStr lt ++ "!" ++ jsToStr eid) := by
  unfold lookupInEntityMap
  rw [truthy_str hs, truthy_str he]
  rfl

theorem getResolvedLink_direct (m : List (String × Nat)) (link sysv : JValue)
    (h1 : jsGet link "sys" = some sysv)
    (h2 : jsGet sysv "type" = some (.str "Link")) :
    getResolvedLink m link =
      .ok (lookupToVal (emGet m
        (jsToStr (jsGet sysv "linkType") ++ "!" ++ jsToStr (jsGet sysv "id")))) := by
  simp only [getResolvedLink, h1, Option.some_bind, h2]
  rfl

theorem getResolvedLink_resource_badUrn (m : List (String × Nat)) (link sysv : JValue)
    (h1 : jsGet link "sys" = some sysv)
    (h2 : jsGet sysv "type" = some (.str "ResourceLink"))
    (h3 : getIdsFromUrnVal (jsGet sysv "urn") = none) :
    getResolvedLink m link = .ok .unres := by
  simp only [getResolvedLink, h1, Option.some_bind, h2, h3]

theorem getLast?_some_mem {α : Type} {l : List α} {a : α}
    (h : l.getLast? = some a) : a ∈ l := by
  induction l with
  | nil => simp at h
  | cons x xs ih =>
      cases xs with
      | nil => simp_all [List.getLast?]
      | cons y ys =>
          rw [List.getLast?_cons_cons] at h
          exact List.mem_cons_of_mem x (ih h)

theorem string_mk_ne_empty {l : List Char} (h : l ≠ []) : String.mk l ≠ "" := by
  intro he
  exact h (by simpa using congrArg String.data he)

theorem parseTail_fields {t : List Char} {ids : UrnIds}
    (h : parseTail t = some ids) :
    ids.spaceId ≠ "" ∧ ids.environmentId ≠ "" ∧ ids.entryId ≠ "" := by
  unfold parseTail at h
  split at h
  · rename_i sid mid eid heq
    split at h
    · rename_i hc
      obtain ⟨h1, h2, h3⟩ := hc
      cases h
      exact ⟨string_mk_ne_empty h1, show ("master" : String) ≠ "" by decide,
        string_mk_ne_empty h3⟩
    · exact absurd h (by simp)
  · rename_i sid envLit env entLit eid heq
    split at h
    · rename_i hc
      obtain ⟨h1, h2, h3, h4, h5⟩ := hc
      cases h
      exact ⟨string_mk_ne_empty h1, string_mk_ne_empty h3, string_mk_ne_empty h5⟩
    · exact absurd h (by simp)
  · exact absurd h (by simp)

theorem getIdsFromUrn_fields {s : String} {ids : UrnIds}
    (h : getIdsFromUrn s = some ids) :
    ids.spaceId ≠ "" ∧ ids.environmentId ≠ "" ∧ ids.entryId ≠ "" := by
  unfold getIdsFromUrn at h
  have hmem := getLast?_some_mem h
  obtain ⟨pt, _, hpt⟩ := List.mem_filterMap.mp hmem
  split at hpt
  · exact parseTail_fields hpt
  · exact absurd hpt (by simp)

theorem getIdsFromUrnVal_fields {u : Option JValue} {ids : UrnIds}
    (h : getIdsFromUrnVal u = some ids) :
    ids.spaceId ≠ "" ∧ ids.environmentId ≠ "" ∧ ids.entryId ≠ "" := by
  unfold getIdsFromUrnVal at h
  split at h
  · exact getIdsFromUrn_fields h
  · exact absurd h (by simp)

theorem getResolvedLink_resource_ok (m : List (String × Nat)) (link sysv : JValue)
    (ids : UrnIds) (lt : String)
    (h1 : jsGet link "sys" = some sysv)
    (h2 : jsGet sysv "type" = some (.str "ResourceLink"))
    (h3 : getIdsFromUrnVal (jsGet sysv "urn") = some ids)
    (h4 : jsGet sysv "linkType" = some (.str lt)) :
    getResolvedLink m link =
      .ok (lookupToVal (emGet m
        (ids.spaceId ++ "!" ++ ids.environmentId ++ "!" ++
          jsToStr (((splitChar ':' lt).get? 1).map .str) ++ "!" ++ ids.entryId))) := by
  obtain ⟨hs, he, hi⟩ := getIdsFromUrnVal_fields h3
  simp only [getResolvedLink, h1, Option.some_bind, h2, h3, h4]
  rw [lookupInEntityMap_scoped m _ _ _ _ hs he]
  rfl

/-!
## Claims C1, C8, C2
-/

/-- Claim C1 (amended): provided no *other* record in the flattened entity
list shares either of its keys, a record whose identity block carries both
scope identifiers is registered in the entity index under its global key
and its scoped key, both mapping to the same record (otherwise the last
registrant of a key wins, see the counterexample); and resolving a
direct-link node (`sys.type === 'Link'`) always looks up the global key
`"{linkType}!{id}"` only, whatever scope identifiers the target carries. -/
theorem C1_amended :
    (∀ (r : ContentfulResponse) (j : Nat) (e : JValue) (g sc : String),
      (allEntriesOf r).get? j = some e →
      entityKeys e = [g, sc] →
      (∀ j' e', j' ≠ j → (allEntriesOf r).get? j' = some e' →
        g ∉ entityKeys e' ∧ sc ∉ entityKeys e') →
      emGet (entityMapOf r) g = some j ∧ emGet (entityMapOf r) sc = some j) ∧
    (∀ (m : List (String × Nat)) (link sysv : JValue),
      jsGet link "sys" = some sysv →
      jsGet sysv "type" = some (.str "Link") →
      getResolvedLink m link =
        .ok (lookupToVal (emGet m
          (jsToStr (jsGet sysv "linkType") ++ "!" ++ jsToStr (jsGet sysv "id"))))) := by
  constructor
  · intro r j e g sc hget hkeys hother
    have hg : emGet (entityMapOf r) g = some (0 + j) := by
      apply emGet_buildEM_some g (allEntriesOf r) 0 j e hget
      · rw [hkeys]; exact List.mem_cons_self _ _
      · intro j' e' hlt hg'
        exact ((hother j' e' (by omega) hg').1)
    have hsc : emGet (entityMapOf r) sc = some (0 + j) := by
      apply emGet_buildEM_some sc (allEntriesOf r) 0 j e hget
      · rw [hkeys]; exact List.mem_cons_of_mem _ (List.mem_cons_self _ _)
      · intro j' e' hlt hg'
        exact ((hother j' e' (by omega) hg').2)
    rw [Nat.zero_add] at hg hsc
    exact ⟨hg, hsc⟩
  · intro m link sysv h1 h2
    exact getResolvedLink_direct m link sysv h1 h2

/-- Claim C8 (amended): a record in the flattened entity list is found in
the index under each key it qualifies for, provided no *later* record
shares that key (the `Map` constructor is last-wins); and every index
binding points at a record of the list that qualifies for that key — in
particular nothing outside the flattened `items`-plus-`includes` list is
ever registered. -/
theorem C8_amended :
    (∀ (r : ContentfulResponse) (j : Nat) (e : JValue) (k : String),
      (allEntriesOf r).get? j = some e → k ∈ entityKeys e →
      (∀ j' e', j < j' → (allEntriesOf r).get? j' = some e' →
        k ∉ entityKeys e') →
      emGet (entityMapOf r) k = some j) ∧
    (∀ (r : ContentfulResponse) (k : String) (v : Nat),
      emGet (entityMapOf r) k = some v →
      ∃ e, (allEntriesOf r).get? v = some e ∧ k ∈ entityKeys e) := by
  constructor
  · intro r j e k hget hk hlater
    have := emGet_buildEM_some k (allEntriesOf r) 0 j e hget hk hlater
    rwa [Nat.zero_add] at this
  · intro r k v h
    obtain ⟨j, e, hj, hv, hk⟩ := emGet_buildEM_mem k (allEntriesOf r) 0 v h
    exact ⟨e, by rwa [show v = j by omega], hk⟩

/-- Claim C2: for a cross-scope link node (`sys.type === 'ResourceLink'`),
if decoding the embedded URN fails the result is the Unresolved marker
(whatever `linkType` holds, since decoding happens first); otherwise, with
a string kind descriptor whose second `':'`-separated segment is `ek`,
the resolver looks up the scoped key
`"{spaceId}!{environmentId}!{ek}!{entryId}"`, returning the matched
record on a hit and the Unresolved marker on a miss. -/
theorem C2_resource_link_resolution
    (m : List (String × Nat)) (link sysv : JValue)
    (h1 : jsGet link "sys" = some sysv)
    (h2 : jsGet sysv "type" = some (.str "ResourceLink")) :
    (getIdsFromUrnVal (jsGet sysv "urn") = none →
      getResolvedLink m link = .ok .unres) ∧
    (∀ (ids : UrnIds) (lt ek : String),
      getIdsFromUrnVal (jsGet sysv "urn") = some ids →
      jsGet sysv "linkType" = some (.str lt) →
      (splitChar ':' lt).get? 1 = some ek →
      (emGet m (ids.spaceId ++ "!" ++ ids.environmentId ++ "!" ++ ek ++ "!" ++
          ids.entryId) = none →
        getResolvedLink m link = .ok .unres) ∧
      (∀ i, emGet m (ids.spaceId ++ "!" ++ ids.environmentId ++ "!" ++ ek ++ "!" ++
          ids.entryId) = some i →
        getResolvedLink m link = .ok (.entry i))) := by
  constructor
  · intro h3
    exact getResolvedLink_resource_badUrn m link sysv h1 h2 h3
  · intro ids lt ek h3 h4 h5
    have heq := getResolvedLink_resource_ok m link sysv ids lt h1 h2 h3 h4
    rw [h5] at heq
    constructor
    · intro hmiss
      rw [heq, show jsToStr (Option.map JValue.str (some ek)) = ek from rfl, hmiss]
      rfl
    · intro i hhit
      rw [heq, show jsToStr (Option.map JValue.str (some ek)) = ek from rfl, hhit]
      rfl

def c1wRec : JValue := .obj [("sys", mkScopedSysJV "Entry" "w" "s" "e")]
def c1wResponse : ContentfulResponse := ⟨some [c1wRec], []⟩
def c1wLinkSys : JValue :=
  .obj [("type", .str "Link"), ("linkType", .str "Entry"), ("id", .str "w")]
def c1wLink : JValue := .obj [("sys", c1wLinkSys)]

/-- Claim C1 witness: the amended theorem applied to a one-record response
with scope identifiers and to a concrete direct link. -/
theorem C1_witness :
    (emGet (entityMapOf c1wResponse) "Entry!w" = some 0 ∧
     emGet (entityMapOf c1wResponse) "s!e!Entry!w" = some 0) ∧
    getResolvedLink [("Entry!w", 42)] c1wLink =
      .ok (lookupToVal (emGet [("Entry!w", 42)]
        (jsToStr (jsGet c1wLinkSys "linkType") ++ "!" ++
          jsToStr (jsGet c1wLinkSys "id")))) := by
  refine ⟨C1_amended.1 c1wResponse 0 c1wRec "Entry!w" "s!e!Entry!w"
      (by decide) (by decide) ?_,
    C1_amended.2 [("Entry!w", 42)] c1wLink c1wLinkSys (by decide) (by decide)⟩
  intro j' e' hne hget
  cases j' with
  | zero => exact absurd rfl hne
  | succ n =>
      rw [show allEntriesOf c1wResponse = [c1wRec] from by decide] at hget
      simp at hget

def c8wRec : JValue := .obj [("sys", mkSysJV "Entry" "v")]
def c8wResponse : ContentfulResponse := ⟨some [c8wRec], []⟩

/-- Claim C8 witness: the amended theorem applied to a one-record response;
both directions at the key `"Entry!v"`. -/
theorem C8_witness :
    emGet (entityMapOf c8wResponse) "Entry!v" = some 0 ∧
    (∃ e, (allEntriesOf c8wResponse).get? 0 = some e ∧ "Entry!v" ∈ entityKeys e) := by
  constructor
  · apply C8_amended.1 c8wResponse 0 c8wRec "Entry!v" (by decide) (by decide)
    intro j' e' hlt hget
    rw [show allEntriesOf c8wResponse = [c8wRec] from by decide] at hget
    cases j' with
    | zero => omega
    | succ n => simp at hget
  · exact C8_amended.2 c8wResponse "Entry!v" 0 (by decide)

def c2wSys : JValue :=
  .obj [("type", .str "ResourceLink"), ("linkType", .str "Contentful:Entry"),
    ("urn", .str "crn:spaces/SID/entries/EID")]
def c2wLink : JValue := .obj [("sys", c2wSys)]
def c2wMap : List (String × Nat) := [("SID!master!Entry!EID", 3)]

/-- Claim C2 witness: the theorem applied to a concrete ResourceLink whose
URN decodes to space `SID`, default environment `master`, entry `EID`, and
whose kind descriptor's second segment is `Entry`; the scoped key hits. -/
theorem C2_witness : getResolvedLink c2wMap c2wLink = .ok (.entry 3) :=
  ((C2_resource_link_resolution c2wMap c2wLink c2wSys (by decide) (by decide)).2
    ⟨"SID", "master", "EID"⟩ "Contentful:Entry" "Entry"
    (by decide) (by decide) (by decide)).2 3 (by decide)

/-!
## Orchestrator plumbing lemmas
-/

theorem resolveResponse_ok_inv {r : ContentfulResponse} {opts : ResolveOptions}
    {res : ResolveResult} {its : List JValue}
    (hits : r.items = some its) (h : resolveResponse r opts = .ok res) :
    ∃ final,
      runPass (buildEM 0 (allEntriesOf r)) opts.removeUnresolved
        opts.itemEntryPoints (List.range (allEntriesOf r).length)
        (allEntriesOf r) = .ok final ∧
      res = ⟨final, takeItems its final⟩ := by
  rw [resolveResponse, hits] at h
  have h2 : (do
      let final ← runPass (buildEM 0 (allEntriesOf r)) opts.removeUnresolved
        opts.itemEntryPoints (List.range (allEntriesOf r).length) (allEntriesOf r)
      Except.ok (⟨final, takeItems its final⟩ : ResolveResult)) = .ok res := h
  cases hrun : runPass (buildEM 0 (allEntriesOf r)) opts.removeUnresolved
      opts.itemEntryPoints (List.range (allEntriesOf r).length)
      (allEntriesOf r) with
  | error e =>
      rw [hrun] at h2
      exact Except.noConfusion (show Except.error e = Except.ok res from h2)
  | ok final =>
      rw [hrun] at h2
      have hr : Except.ok (⟨final, takeItems its final⟩ : ResolveResult) =
          Except.ok res := h2
      have : (⟨final, takeItems its final⟩ : ResolveResult) = res := by injection hr
      exact ⟨final, rfl, this.symm⟩

theorem resolveResponse_of_runPass {r : ContentfulResponse} {opts : ResolveOptions}
    {its final : List JValue}
    (hits : r.items = some its)
    (hrun : runPass (buildEM 0 (allEntriesOf r)) opts.removeUnresolved
      opts.itemEntryPoints (List.range (allEntriesOf r).length)
      (allEntriesOf r) = .ok final) :
    resolveResponse r opts = .ok ⟨final, takeItems its final⟩ := by
  rw [resolveResponse, hits]
  show (do
      let final ← runPass (buildEM 0 (allEntriesOf r)) opts.removeUnresolved
        opts.itemEntryPoints (List.range (allEntriesOf r).length) (allEntriesOf r)
      Except.ok (⟨final, takeItems its final⟩ : ResolveResult)) = _
  rw [hrun]
  rfl

theorem filter_eraseIdx_of_not {α : Type} (p : α → Bool) :
    ∀ (l : List α) (i : Nat) (a : α), l.get? i = some a → p a = false →
      (l.eraseIdx i).filter p = l.filter p := by
  intro l
  induction l with
  | nil => intro i a h; simp at h
  | cons x xs ih =>
      intro i a h hp
      cases i with
      | zero =>
          have hx : x = a := by simpa using h
          subst hx
          simp [List.eraseIdx, List.filter, hp]
      | succ n =>
          simp only [List.get?_cons_succ] at h
          show (x :: xs.eraseIdx n).filter p = _
          rw [List.filter_cons, List.filter_cons, ih n a h hp]

theorem takeItems_length : ∀ (its arena : List JValue),
    (takeItems its arena).length = its.length := by
  intro its
  induction its with
  | nil => intro arena; rfl
  | cons it its ih =>
      intro arena
      unfold takeItems
      by_cases h : hasSys it
      · rw [if_pos h]
        cases arena with
        | nil => simp [ih]
        | cons a rest => simp [ih]
      · rw [if_neg h]
        simp [ih]

theorem takeItems_get?_of_not_hasSys :
    ∀ (its : List JValue) (i : Nat) (it : JValue) (arena : List JValue),
      its.get? i = some it → hasSys it = false →
      (takeItems its arena).get? i = some it := by
  intro its
  induction its with
  | nil => intro i it arena h; simp at h
  | cons x xs ih =>
      intro i it arena h hns
      cases i with
      | zero =>
          have hx : x = it := by simpa using h
          subst hx
          unfold takeItems
          rw [if_neg (by simp [hns])]
          rfl
      | succ n =>
          simp only [List.get?_cons_succ] at h
          unfold takeItems
          by_cases hx : hasSys x
          · rw [if_pos hx]
            cases arena with
            | nil => exact ih n it [] h hns
            | cons a rest => exact ih n it rest h hns
          · rw [if_neg hx]
            exact ih n it arena h hns

/-- Claim C10: a top-level element of `items` without a truthy `sys` block
is excluded from the flattened entity list — erasing it leaves that list,
hence the Entity Index and the resolution pass, unchanged — yet whenever
the call returns it still appears, unmodified, at its original position in
the returned `items`, whose length equals the input's. -/
theorem C10_no_sys_item (r : ContentfulResponse) (its : List JValue)
    (i : Nat) (it : JValue) (opts : ResolveOptions)
    (hits : r.items = some its)
    (hget : its.get? i = some it)
    (hns : hasSys it = false) :
    allEntriesOf r =
      allEntriesOf { items := some (its.eraseIdx i), includes := r.includes } ∧
    ∀ res, resolveResponse r opts = .ok res →
      res.items.get? i = some it ∧ res.items.length = its.length := by
  constructor
  · show ((r.items.getD []) ++ _).filter hasSys = _
    rw [hits]
    show (its ++ _).filter hasSys = ((its.eraseIdx i) ++ _).filter hasSys
    rw [List.filter_append, List.filter_append,
      filter_eraseIdx_of_not hasSys its i it hget hns]
  · intro res hres
    obtain ⟨final, hrun, hform⟩ := resolveResponse_ok_inv hits hres
    subst hform
    exact ⟨takeItems_get?_of_not_hasSys its i it final hget hns,
      takeItems_length its final⟩

def c10wItem : JValue := .obj [("foo", .num 1)]
def c10wResponse : ContentfulResponse :=
  ⟨some [c10wItem, .obj [("sys", mkSysJV "Entry" "q")]], []⟩

/-- Claim C10 witness: the theorem applied to a response whose first item
has no `sys`, with the resolution result evaluated concretely. -/
theorem C10_witness :
    allEntriesOf c10wResponse =
      allEntriesOf { items := some ([c10wItem,
        .obj [("sys", mkSysJV "Entry" "q")]].eraseIdx 0), includes := [] } ∧
    ∀ res, resolveResponse c10wResponse {} = .ok res →
      res.items.get? 0 = some c10wItem ∧ res.items.length = 2 :=
  C10_no_sys_item c10wResponse _ 0 c10wItem {} rfl (by decide) (by decide)

/-!
## Walker lemmas
-/

/-- The `cleanUpLinks` element test, as a plain inequality. -/
theorem cleanup_keep_iff (v : JValue) :
    keepVal v = true ↔ v ≠ .unres := by
  cases v <;> simp [keepVal]

theorem noUnres_ne_unres {v : JValue} (h : noUnres v = true) : v ≠ .unres := by
  intro he
  subst he
  simp [noUnres] at h

theorem noUnresList_mem : ∀ {xs : List JValue}, noUnresList xs = true →
    ∀ x ∈ xs, noUnres x = true := by
  intro xs
  induction xs with
  | nil => intro _ x hx; simp at hx
  | cons y ys ih =>
      intro h x hx
      rw [noUnresList, Bool.and_eq_true] at h
      rcases List.mem_cons.mp hx with h1 | h2
      · exact h1 ▸ h.1
      · exact ih h.2 x h2

theorem noUnresFields_mem : ∀ {fs : List (String × JValue)},
    noUnresFields fs = true → ∀ kv ∈ fs, noUnres kv.2 = true := by
  intro fs
  induction fs with
  | nil => intro _ kv hkv; simp at hkv
  | cons p ps ih =>
      intro h kv hkv
      obtain ⟨k, v⟩ := p
      rw [noUnresFields, Bool.and_eq_true] at h
      rcases List.mem_cons.mp hkv with h1 | h2
      · exact h1 ▸ h.1
      · exact ih h.2 kv h2

/-- `cleanUpLinks` is the identity on sentinel-free arrays and objects. -/
theorem cleanUpLinks_of_noUnres : ∀ {v : JValue}, noUnres v = true →
    cleanUpLinks v = v := by
  intro v h
  cases v with
  | arr xs =>
      rw [cleanUpLinks]
      congr 1
      apply List.filter_eq_self.mpr
      intro x hx
      exact (cleanup_keep_iff x).mpr
        (noUnres_ne_unres (noUnresList_mem (by simpa [noUnres] using h) x hx))
  | obj fs =>
      rw [cleanUpLinks]
      congr 1
      apply List.filter_eq_self.mpr
      intro kv hkv
      exact (cleanup_keep_iff kv.2).mpr
        (noUnres_ne_unres (noUnresFields_mem (by simpa [noUnres] using h) kv hkv))
  | null => rfl
  | bool b => rfl
  | num n => rfl
  | str s => rfl
  | entry i => rfl
  | unres => rfl

mutual
/-- A value with no link-predicate nodes and no sentinel is a fixed point
of the walker, whatever the mutator and the pruning flag. -/
theorem walkMutate_linkFree (mf : JValue → Except Unit JValue) (ru : Bool) :
    ∀ v, linkFree v = true → noUnres v = true →
      walkMutate isLinkNode mf ru v = .ok v
  | .null, _, _ => rfl
  | .bool b, _, _ => rfl
  | .num n, _, _ => rfl
  | .str s, _, _ => rfl
  | .entry i, _, _ => rfl
  | .unres, _, h2 => absurd h2 (by simp [noUnres])
  | .arr xs, h1, h2 => by
      have hl := walkList_linkFree mf ru xs (by simpa [linkFree] using h1)
        (by simpa [noUnres] using h2)
      rw [walkMutate, if_neg (by simp [isLinkNode, isLink, isResourceLink, jsGet])]
      rw [hl]
      show Except.ok _ = _
      cases ru with
      | false => rfl
      | true =>
          rw [if_pos rfl, cleanUpLinks_of_noUnres h2]
  | .obj fs, h1, h2 => by
      have hnp : isLinkNode (.obj fs) = false := by
        have := h1
        rw [linkFree, Bool.and_eq_true] at this
        simpa using this.1
      have hf := walkFields_linkFree mf ru fs
        (by rw [linkFree, Bool.and_eq_true] at h1; exact h1.2)
        (by simpa [noUnres] using h2)
      rw [walkMutate, if_neg (by simp [hnp])]
      rw [hf]
      show Except.ok _ = _
      cases ru with
      | false => rfl
      | true =>
          rw [if_pos rfl, cleanUpLinks_of_noUnres h2]

theorem walkList_linkFree (mf : JValue → Except Unit JValue) (ru : Bool) :
    ∀ xs, linkFreeList xs = true → noUnresList xs = true →
      walkList isLinkNode mf ru xs = .ok xs
  | [], _, _ => rfl
  | x :: xs, h1, h2 => by
      rw [linkFreeList, Bool.and_eq_true] at h1
      rw [noUnresList, Bool.and_eq_true] at h2
      rw [walkList, walkMutate_linkFree mf ru x h1.1 h2.1,
        walkList_linkFree mf ru xs h1.2 h2.2]
      rfl

theorem walkFields_linkFree (mf : JValue → Except Unit JValue) (ru : Bool) :
    ∀ fs, linkFreeFields fs = true → noUnresFields fs = true →
      walkFields isLinkNode mf ru fs = .ok fs
  | [], _, _ => rfl
  | (k, x) :: fs, h1, h2 => by
      rw [linkFreeFields, Bool.and_eq_true] at h1
      rw [noUnresFields, Bool.and_eq_true] at h2
      rw [walkFields, walkMutate_linkFree mf ru x h1.1 h2.1,
        walkFields_linkFree mf ru fs h1.2 h2.2]
      rfl
end

theorem walkMutate_pred {p : JValue → Bool} {mf : JValue → Except Unit JValue}
    {ru : Bool} {v : JValue} (h : p v = true) :
    walkMutate p mf ru v = mf v := by
  cases v <;> simp [walkMutate, h]

theorem walkMutate_obj_not_pred {p : JValue → Bool}
    {mf : JValue → Except Unit JValue} {ru : Bool}
    {fs : List (String × JValue)} (h : p (.obj fs) = false) :
    walkMutate p mf ru (.obj fs) = (do
      let gs ← walkFields p mf ru fs
      Except.ok (if ru then cleanUpLinks (.obj gs) else .obj gs)) := by
  simp [walkMutate, h]

/-- The response shape of claim C7: two records `A` and `B`, each with a
`sys` block and one field holding a link node. -/
def c7Response (sysA sysB la lb : JValue) : ContentfulResponse :=
  ⟨some [.obj [("sys", sysA), ("fa", la)], .obj [("sys", sysB), ("fb", lb)]], []⟩

/-- Claim C7: for every response of two records `A` and `B` where `A`'s
field links to `B` (its link node resolves to arena position 1) and `B`'s
field links back to `A` (position 0), `resolveResponse` returns normally —
the walker never recurses into a resolved target, so the cyclic reference
graph is handled by the bounded per-record pass — and afterwards `A` holds
a reference to the resolved `B` and `B` a reference to the resolved `A`:
mutually resolved in a single pass. -/
theorem C7_cycle_mutual_resolution
    (sysA sysB la lb : JValue) (ru : Bool)
    (htA : truthy (some sysA) = true) (htB : truthy (some sysB) = true)
    (hlfA : linkFree sysA = true) (hnuA : noUnres sysA = true)
    (hlfB : linkFree sysB = true) (hnuB : noUnres sysB = true)
    (hpA : isLinkNode (.obj [("sys", sysA), ("fa", la)]) = false)
    (hpB : isLinkNode (.obj [("sys", sysB), ("fb", lb)]) = false)
    (hla : isLinkNode la = true) (hlb : isLinkNode lb = true)
    (hresA : getResolvedLink (entityMapOf (c7Response sysA sysB la lb)) la =
      .ok (.entry 1))
    (hresB : getResolvedLink (entityMapOf (c7Response sysA sysB la lb)) lb =
      .ok (.entry 0)) :
    resolveResponse (c7Response sysA sysB la lb)
        { removeUnresolved := ru, itemEntryPoints := none } =
      .ok ⟨[.obj [("sys", sysA), ("fa", .entry 1)],
            .obj [("sys", sysB), ("fb", .entry 0)]],
           [.obj [("sys", sysA), ("fa", .entry 1)],
            .obj [("sys", sysB), ("fb", .entry 0)]]⟩ := by
  set A := JValue.obj [("sys", sysA), ("fa", la)] with hAdef
  set B := JValue.obj [("sys", sysB), ("fb", lb)] with hBdef
  set A' := JValue.obj [("sys", sysA), ("fa", JValue.entry 1)] with hA'def
  set B' := JValue.obj [("sys", sysB), ("fb", JValue.entry 0)] with hB'def
  set m := entityMapOf (c7Response sysA sysB la lb) with hmdef
  set mf := fun l => normalizeLink m l ru with hmfdef
  have hsysGetA : jsGet A "sys" = some sysA := rfl
  have hsysGetB : jsGet B "sys" = some sysB := rfl
  have hhsA : hasSys A = true := by
    show truthy (jsGet A "sys") = true
    rw [hsysGetA]
    exact htA
  have hhsB : hasSys B = true := by
    show truthy (jsGet B "sys") = true
    rw [hsysGetB]
    exact htB
  have hAE : allEntriesOf (c7Response sysA sysB la lb) = [A, B] := by
    show List.filter hasSys ([A, B] ++ []) = [A, B]
    rw [List.append_nil]
    rw [List.filter_cons, List.filter_cons]
    rw [hhsA, hhsB]
    rfl
  have hwla : walkMutate isLinkNode mf ru la = .ok (.entry 1) := by
    rw [walkMutate_pred hla]
    show normalizeLink m la ru = _
    simp only [normalizeLink, hresA]
    rfl
  have hwlb : walkMutate isLinkNode mf ru lb = .ok (.entry 0) := by
    rw [walkMutate_pred hlb]
    show normalizeLink m lb ru = _
    simp only [normalizeLink, hresB]
    rfl
  have hwsysA : walkMutate isLinkNode mf ru sysA = .ok sysA :=
    walkMutate_linkFree mf ru sysA hlfA hnuA
  have hwsysB : walkMutate isLinkNode mf ru sysB = .ok sysB :=
    walkMutate_linkFree mf ru sysB hlfB hnuB
  have hnuA' : noUnres A' = true := by
    show (noUnres sysA && (noUnres (JValue.entry 1) && true)) = true
    rw [hnuA]
    rfl
  have hnuB' : noUnres B' = true := by
    show (noUnres sysB && (noUnres (JValue.entry 0) && true)) = true
    rw [hnuB]
    rfl
  have hwA : walkMutate isLinkNode mf ru A = .ok A' := by
    rw [walkMutate, if_neg (by simp [hpA])]
    show (do
      let gs ← walkFields isLinkNode mf ru [("sys", sysA), ("fa", la)]
      Except.ok (if ru then cleanUpLinks (.obj gs) else .obj gs)) = _
    rw [show walkFields isLinkNode mf ru [("sys", sysA), ("fa", la)] =
        .ok [("sys", sysA), ("fa", JValue.entry 1)] from by
      rw [walkFields, hwsysA]
      show (do
        let ys ← walkFields isLinkNode mf ru [("fa", la)]
        Except.ok (("sys", sysA) :: ys)) = _
      rw [show walkFields isLinkNode mf ru [("fa", la)] =
          .ok [("fa", JValue.entry 1)] from by
        rw [walkFields, hwla]
        rfl]
      rfl]
    show Except.ok (if ru then cleanUpLinks A' else A') = _
    cases ru with
    | false => rfl
    | true => rw [if_pos rfl, cleanUpLinks_of_noUnres hnuA']
  have hwB : walkMutate isLinkNode mf ru B = .ok B' := by
    rw [walkMutate, if_neg (by simp [hpB])]
    show (do
      let gs ← walkFields isLinkNode mf ru [("sys", sysB), ("fb", lb)]
      Except.ok (if ru then cleanUpLinks (.obj gs) else .obj gs)) = _
    rw [show walkFields isLinkNode mf ru [("sys", sysB), ("fb", lb)] =
        .ok [("sys", sysB), ("fb", JValue.entry 0)] from by
      rw [walkFields, hwsysB]
      show (do
        let ys ← walkFields isLinkNode mf ru [("fb", lb)]
        Except.ok (("sys", sysB) :: ys)) = _
      rw [show walkFields isLinkNode mf ru [("fb", lb)] =
          .ok [("fb", JValue.entry 0)] from by
        rw [walkFields, hwlb]
        rfl]
      rfl]
    show Except.ok (if ru then cleanUpLinks B' else B') = _
    cases ru with
    | false => rfl
    | true => rw [if_pos rfl, cleanUpLinks_of_noUnres hnuB']
  have hp0 : processOne m ru none [A, B] 0 = .ok [A', B] := by
    show (do
      let walked ← walkMutate isLinkNode mf ru (makeEntryObject A none)
      let newItem := match (none : Option (List String)) with
        | none => if isLinkNode A then objAssign [A, B] A walked else walked
        | some _ => objAssign [A, B] A walked
      Except.ok (List.set [A, B] 0 newItem)) = _
    rw [show makeEntryObject A none = A from rfl, hwA]
    show Except.ok (List.set [A, B] 0 (if isLinkNode A then _ else A')) = _
    rw [hpA]
    rfl
  have hp1 : processOne m ru none [A', B] 1 = .ok [A', B'] := by
    show (do
      let walked ← walkMutate isLinkNode mf ru (makeEntryObject B none)
      let newItem := match (none : Option (List String)) with
        | none => if isLinkNode B then objAssign [A', B] B walked else walked
        | some _ => objAssign [A', B] B walked
      Except.ok (List.set [A', B] 1 newItem)) = _
    rw [show makeEntryObject B none = B from rfl, hwB]
    show Except.ok (List.set [A', B] 1 (if isLinkNode B then _ else B')) = _
    rw [hpB]
    rfl
  have hrun : runPass m ru none [0, 1] [A, B] = .ok [A', B'] := by
    rw [runPass]
    rw [hp0]
    show runPass m ru none [1] [A', B] = _
    rw [runPass]
    rw [hp1]
    rfl
  have htake : takeItems [A, B] [A', B'] = [A', B'] := by
    simp [takeItems, hhsA, hhsB]
  have hm2 : m = buildEM 0 [A, B] := by
    rw [hmdef]
    show buildEM 0 (allEntriesOf _) = _
    rw [hAE]
  have hfinal := @resolveResponse_of_runPass (c7Response sysA sysB la lb)
    { removeUnresolved := ru, itemEntryPoints := none } [A, B] [A', B']
    rfl
    (by rw [hAE, ← hm2]
        exact hrun)
  rw [hfinal, htake]

/-- Claim C7 witness: the theorem applied to two concrete mutually-linked
entries. -/
theorem C7_witness :
    resolveResponse (c7Response (mkSysJV "Entry" "a") (mkSysJV "Entry" "b")
        (mkLinkJV "Entry" "b") (mkLinkJV "Entry" "a"))
        { removeUnresolved := false, itemEntryPoints := none } =
      .ok ⟨[.obj [("sys", mkSysJV "Entry" "a"), ("fa", .entry 1)],
            .obj [("sys", mkSysJV "Entry" "b"), ("fb", .entry 0)]],
           [.obj [("sys", mkSysJV "Entry" "a"), ("fa", .entry 1)],
            .obj [("sys", mkSysJV "Entry" "b"), ("fb", .entry 0)]]⟩ :=
  C7_cycle_mutual_resolution (mkSysJV "Entry" "a") (mkSysJV "Entry" "b")
    (mkLinkJV "Entry" "b") (mkLinkJV "Entry" "a") false
    (by decide) (by decide) (by decide) (by decide) (by decide) (by decide)
    (by decide) (by decide) (by decide) (by decide) (by decide) (by decide)

/-!
## Field-list lemmas (`Object.assign`, projection, key frames)
-/

theorem lookupField_mem : ∀ {fs : List (String × JValue)} {k : String} {v : JValue},
    lookupField fs k = some v → (k, v) ∈ fs := by
  intro fs
  induction fs with
  | nil => intro k v h; simp [lookupField] at h
  | cons p ps ih =>
      intro k v h
      obtain ⟨k', v'⟩ := p
      rw [lookupField] at h
      by_cases hk : k' = k
      · rw [if_pos hk] at h
        injection h with h
        subst hk
        subst h
        exact List.mem_cons_self _ _
      · rw [if_neg hk] at h
        exact List.mem_cons_of_mem _ (ih h)

theorem setField_self : ∀ {fs : List (String × JValue)} {k : String} {v : JValue},
    lookupField fs k = some v → setField fs k v = fs := by
  intro fs
  induction fs with
  | nil => intro k v h; simp [lookupField] at h
  | cons p ps ih =>
      intro k v h
      obtain ⟨k', v'⟩ := p
      rw [lookupField] at h
      rw [setField]
      by_cases hk : k' = k
      · rw [if_pos hk] at h
        injection h with h
        rw [if_pos hk, h]
      · rw [if_neg hk] at h
        rw [if_neg hk, ih h]

/-- Merging fields whose bindings already hold in the target is a no-op
(`Object.assign(item, sub)` when `sub`'s fields were read off `item`). -/
theorem mergeFields_self : ∀ {sf tf : List (String × JValue)},
    (∀ kv ∈ sf, lookupField tf kv.1 = some kv.2) → mergeFields tf sf = tf := by
  intro sf
  induction sf with
  | nil => intro tf _; rfl
  | cons p ps ih =>
      intro tf h
      obtain ⟨k, v⟩ := p
      show List.foldl _ (setField tf k v) ps = tf
      rw [setField_self (h (k, v) (List.mem_cons_self _ _))]
      exact ih (fun kv hkv => h kv (List.mem_cons_of_mem _ hkv))

theorem setField_keys_superset :
    ∀ {fs : List (String × JValue)} {k : String} {v : JValue} {key : String},
      key ∈ fs.map Prod.fst → key ∈ (setField fs k v).map Prod.fst := by
  intro fs
  induction fs with
  | nil => intro k v key h; simp at h
  | cons p ps ih =>
      intro k v key h
      obtain ⟨k', v'⟩ := p
      rw [setField]
      rw [List.map_cons] at h
      by_cases hk : k' = k
      · rw [if_pos hk, List.map_cons]
        exact h
      · rw [if_neg hk, List.map_cons]
        rcases List.mem_cons.mp h with h1 | h2
        · exact List.mem_cons.mpr (Or.inl h1)
        · exact List.mem_cons.mpr (Or.inr (ih h2))

theorem mergeFields_keys_superset :
    ∀ {sf tf : List (String × JValue)} {key : String},
      key ∈ tf.map Prod.fst → key ∈ (mergeFields tf sf).map Prod.fst := by
  intro sf
  induction sf with
  | nil => intro tf key h; exact h
  | cons p ps ih =>
      intro tf key h
      show key ∈ (List.foldl _ (setField tf p.1 p.2) ps).map Prod.fst
      exact ih (setField_keys_superset h)

theorem setField_noUnres {fs : List (String × JValue)} {k : String} {v : JValue}
    (hf : noUnresFields fs = true) (hv : noUnres v = true) :
    noUnresFields (setField fs k v) = true := by
  induction fs with
  | nil => simp [setField, noUnresFields, hv]
  | cons p ps ih =>
      obtain ⟨k', v'⟩ := p
      rw [noUnresFields, Bool.and_eq_true] at hf
      rw [setField]
      by_cases hk : k' = k
      · rw [if_pos hk]
        rw [noUnresFields, Bool.and_eq_true]
        exact ⟨hv, hf.2⟩
      · rw [if_neg hk]
        rw [noUnresFields, Bool.and_eq_true]
        exact ⟨hf.1, ih hf.2⟩

theorem mergeFields_noUnres : ∀ {sf tf : List (String × JValue)},
    noUnresFields tf = true → noUnresFields sf = true →
    noUnresFields (mergeFields tf sf) = true := by
  intro sf
  induction sf with
  | nil => intro tf ht _; exact ht
  | cons p ps ih =>
      intro tf ht hs
      obtain ⟨k, v⟩ := p
      rw [noUnresFields, Bool.and_eq_true] at hs
      show noUnresFields (List.foldl _ (setField tf k v) ps) = true
      exact ih (setField_noUnres ht hs.1) hs.2

theorem walkFields_keys {p : JValue → Bool} {mf : JValue → Except Unit JValue}
    {ru : Bool} : ∀ {fs gs : List (String × JValue)},
    walkFields p mf ru fs = .ok gs → gs.map Prod.fst = fs.map Prod.fst := by
  intro fs
  induction fs with
  | nil =>
      intro gs h
      have : ([] : List (String × JValue)) = gs := by
        have h' : Except.ok ([] : List (String × JValue)) = .ok gs := h
        injection h'
      subst this
      rfl
  | cons q qs ih =>
      intro gs h
      obtain ⟨k, x⟩ := q
      rw [walkFields] at h
      cases hw : walkMutate p mf ru x with
      | error e => rw [hw] at h; exact Except.noConfusion (show Except.error e = _ from h)
      | ok y =>
          rw [hw] at h
          cases hws : walkFields p mf ru qs with
          | error e =>
              rw [hws] at h
              exact Except.noConfusion (show Except.error e = _ from h)
          | ok ys =>
              rw [hws] at h
              have h' : Except.ok ((k, y) :: ys) = Except.ok gs := h
              have : (k, y) :: ys = gs := by injection h'
              subst this
              simp [ih hws]

/-!
## Sentinel-freedom preservation through the pass
-/

theorem lookupToVal_shape (o : Option Nat) :
    lookupToVal o = .unres ∨ ∃ i, lookupToVal o = .entry i := by
  cases o with
  | none => exact Or.inl rfl
  | some i => exact Or.inr ⟨i, rfl⟩

theorem getResolvedLink_shape {m : List (String × Nat)} {l w : JValue}
    (h : getResolvedLink m l = .ok w) : w = .unres ∨ ∃ i, w = .entry i := by
  unfold getResolvedLink at h
  dsimp only at h
  split at h
  · split at h
    · have hw : JValue.unres = w := by injection h
      exact Or.inl hw.symm
    · split at h
      · injection h with hw
        rw [← hw]
        exact lookupToVal_shape _
      · exact Except.noConfusion h
  · injection h with hw
    rw [← hw]
    exact lookupToVal_shape _

theorem normalizeLink_shape {m : List (String × Nat)} {l w : JValue} {ru : Bool}
    (h : normalizeLink m l ru = .ok w) :
    (ru = true ∧ w = .unres) ∨ w = l ∨ ∃ i, w = .entry i := by
  unfold normalizeLink at h
  cases hr : getResolvedLink m l with
  | error e =>
      rw [hr] at h
      exact Except.noConfusion (show Except.error e = _ from h)
  | ok resolved =>
      rw [hr] at h
      rcases getResolvedLink_shape hr with hu | ⟨i, hi⟩
      · subst hu
        have h' : Except.ok (if ru then JValue.unres else l) = Except.ok w := h
        have hw : (if ru then JValue.unres else l) = w := by injection h'
        cases ru with
        | false => exact Or.inr (Or.inl hw.symm)
        | true => exact Or.inl ⟨rfl, hw.symm⟩
      · subst hi
        have h' : Except.ok (JValue.entry i) = Except.ok w := h
        have hw : JValue.entry i = w := by injection h'
        exact Or.inr (Or.inr ⟨i, hw.symm⟩)

theorem noUnresFields_append : ∀ (a b : List (String × JValue)),
    noUnresFields (a ++ b) = (noUnresFields a && noUnresFields b) := by
  intro a b
  induction a with
  | nil => simp [noUnresFields]
  | cons p ps ih =>
      obtain ⟨k, v⟩ := p
      show noUnresFields ((k, v) :: (ps ++ b)) = _
      rw [noUnresFields, ih]
      show _ = (noUnres v && noUnresFields ps && noUnresFields b)
      rw [Bool.and_assoc]

theorem jsGet_noUnres {item : JValue} {k : String} {v : JValue}
    (hi : noUnres item = true) (h : jsGet item k = some v) : noUnres v = true := by
  cases item with
  | obj fs =>
      exact noUnresFields_mem (by simpa [noUnres] using hi) _
        (lookupField_mem (show lookupField fs k = some v from h))
  | null => exact absurd h (by simp [jsGet])
  | bool b => exact absurd h (by simp [jsGet])
  | num n => exact absurd h (by simp [jsGet])
  | str s => exact absurd h (by simp [jsGet])
  | arr xs => exact absurd h (by simp [jsGet])
  | entry i => exact absurd h (by simp [jsGet])
  | unres => exact absurd h (by simp [jsGet])

theorem makeEntryObject_noUnres {item : JValue} (eps : Option (List String))
    (hi : noUnres item = true) : noUnres (makeEntryObject item eps) = true := by
  cases eps with
  | none => exact hi
  | some ks =>
      show noUnres (.obj (List.foldl (projStep item) [] ks)) = true
      suffices h : ∀ (ks : List String) (acc : List (String × JValue)),
          noUnresFields acc = true →
          noUnresFields (List.foldl (projStep item) acc ks) = true by
        have := h ks [] rfl
        simpa [noUnres] using this
      intro ks
      induction ks with
      | nil => intro acc hacc; exact hacc
      | cons k ks ih =>
          intro acc hacc
          show noUnresFields (List.foldl (projStep item) (projStep item acc k) ks) = true
          unfold projStep
          cases hk : jsGet item k with
          | none => exact ih acc hacc
          | some v =>
              apply ih
              rw [noUnresFields_append, hacc]
              show (true && (noUnres v && true)) = true
              rw [jsGet_noUnres hi hk]
              rfl

theorem objAssign_noUnres {arena : List JValue} {target src : JValue}
    (ha : ∀ e ∈ arena, noUnres e = true) (ht : noUnres target = true)
    (hs : src = .unres ∨ noUnres src = true) :
    noUnres (objAssign arena target src) = true := by
  cases target with
  | obj tf =>
      cases src with
      | obj sf =>
          show noUnres (.obj (mergeFields tf sf)) = true
          have hsf : noUnresFields sf = true := by
            rcases hs with h | h
            · exact absurd h (by simp)
            · simpa [noUnres] using h
          simp only [noUnres]
          exact mergeFields_noUnres (by simpa [noUnres] using ht) hsf
      | entry j =>
          show noUnres (match arena.get? j with
            | some (.obj sf) => JValue.obj (mergeFields tf sf)
            | _ => JValue.obj tf) = true
          cases hg : arena.get? j with
          | none => exact ht
          | some e =>
              cases e with
              | obj sf =>
                  have he : noUnres (JValue.obj sf) = true :=
                    ha _ (List.get?_mem hg)
                  simp only [noUnres]
                  exact mergeFields_noUnres (by simpa [noUnres] using ht)
                    (by simpa [noUnres] using he)
              | null => exact ht
              | bool b => exact ht
              | num n => exact ht
              | str s => exact ht
              | arr xs => exact ht
              | entry i => exact ht
              | unres => exact ht
      | null => exact ht
      | bool b => exact ht
      | num n => exact ht
      | str s => exact ht
      | arr xs => exact ht
      | unres => exact ht
  | null => exact ht
  | bool b => exact ht
  | num n => exact ht
  | str s => exact ht
  | arr xs => exact ht
  | entry i => exact ht
  | unres => exact ht

theorem noUnresList_of_mem : ∀ {xs : List JValue},
    (∀ x ∈ xs, noUnres x = true) → noUnresList xs = true := by
  intro xs
  induction xs with
  | nil => intro _; rfl
  | cons y ys ih =>
      intro h
      rw [noUnresList, Bool.and_eq_true]
      exact ⟨h y (List.mem_cons_self _ _),
        ih (fun x hx => h x (List.mem_cons_of_mem _ hx))⟩

theorem noUnresFields_of_mem : ∀ {fs : List (String × JValue)},
    (∀ kv ∈ fs, noUnres kv.2 = true) → noUnresFields fs = true := by
  intro fs
  induction fs with
  | nil => intro _; rfl
  | cons p ps ih =>
      intro h
      obtain ⟨k, v⟩ := p
      rw [noUnresFields, Bool.and_eq_true]
      exact ⟨h (k, v) (List.mem_cons_self _ _),
        ih (fun kv hkv => h kv (List.mem_cons_of_mem _ hkv))⟩

theorem walkMutate_arr_not_pred {p : JValue → Bool}
    {mf : JValue → Except Unit JValue} {ru : Bool}
    {xs : List JValue} (h : p (.arr xs) = false) :
    walkMutate p mf ru (.arr xs) = (do
      let ys ← walkList p mf ru xs
      Except.ok (if ru then cleanUpLinks (.arr ys) else .arr ys)) := by
  simp [walkMutate, h]

mutual
/-- Outputs of the walker carry no sentinel: if pruning is off, or the node
was not itself a link, the output is sentinel-free; in general it is the
sentinel itself or sentinel-free. -/
theorem walkMutate_noUnres (m : List (String × Nat)) (ru : Bool) :
    ∀ v w, walkMutate isLinkNode (fun l => normalizeLink m l ru) ru v = .ok w →
      noUnres v = true →
      (ru = false → noUnres w = true) ∧
      (isLinkNode v = false → noUnres w = true) ∧
      (w = .unres ∨ noUnres w = true)
  | .null, w, h, _ => by
      have hw : JValue.null = w := by injection h
      subst hw
      exact ⟨fun _ => rfl, fun _ => rfl, Or.inr rfl⟩
  | .bool b, w, h, _ => by
      have hw : JValue.bool b = w := by injection h
      subst hw
      exact ⟨fun _ => rfl, fun _ => rfl, Or.inr rfl⟩
  | .num n, w, h, _ => by
      have hw : JValue.num n = w := by injection h
      subst hw
      exact ⟨fun _ => rfl, fun _ => rfl, Or.inr rfl⟩
  | .str s, w, h, _ => by
      have hw : JValue.str s = w := by injection h
      subst hw
      exact ⟨fun _ => rfl, fun _ => rfl, Or.inr rfl⟩
  | .entry i, w, h, _ => by
      have hw : JValue.entry i = w := by injection h
      subst hw
      exact ⟨fun _ => rfl, fun _ => rfl, Or.inr rfl⟩
  | .unres, w, h, h2 => absurd h2 (by simp [noUnres])
  | .arr xs, w, h, h2 => by
      have hxs : noUnresList xs = true := by simpa [noUnres] using h2
      rw [walkMutate_arr_not_pred (by rfl)] at h
      cases hwl : walkList isLinkNode (fun l => normalizeLink m l ru) ru xs with
      | error e =>
          rw [hwl] at h
          exact Except.noConfusion (show Except.error e = Except.ok w from h)
      | ok ys =>
          rw [hwl] at h
          have hys := walkList_noUnres m ru xs ys hwl hxs
          have hw : (if ru then cleanUpLinks (.arr ys) else .arr ys) = w := by
            have h' : Except.ok (if ru then cleanUpLinks (.arr ys) else .arr ys) =
              Except.ok w := h
            injection h'
          subst hw
          cases ru with
          | false =>
              have hok : noUnres (JValue.arr ys) = true := by
                simpa [noUnres] using hys.1 rfl
              exact ⟨fun _ => hok, fun _ => hok, Or.inr hok⟩
          | true =>
              have hok : noUnres (cleanUpLinks (JValue.arr ys)) = true := by
                show noUnres (.arr (ys.filter _)) = true
                simp only [noUnres]
                apply noUnresList_of_mem
                intro y hy
                have hmem := List.mem_filter.mp hy
                rcases hys.2 y hmem.1 with hu | hnu
                · subst hu
                  exact absurd hmem.2 (by simp [keepVal])
                · exact hnu
              rw [if_pos rfl]
              refine ⟨?_, fun _ => hok, Or.inr hok⟩
              intro hf
              simp at hf
  | .obj fs, w, h, h2 => by
      have hfs : noUnresFields fs = true := by simpa [noUnres] using h2
      cases hp : isLinkNode (.obj fs) with
      | true =>
          rw [walkMutate_pred hp] at h
          rcases normalizeLink_shape h with ⟨hru, hw⟩ | hw | ⟨i, hw⟩
          · subst hru
            subst hw
            refine ⟨?_, ?_, Or.inl rfl⟩
            · intro hf
              simp at hf
            · intro hf
              simp at hf
          · subst hw
            exact ⟨fun _ => h2, fun _ => h2, Or.inr h2⟩
          · subst hw
            exact ⟨fun _ => rfl, fun _ => rfl, Or.inr rfl⟩
      | false =>
          rw [walkMutate_obj_not_pred hp] at h
          cases hwf : walkFields isLinkNode (fun l => normalizeLink m l ru) ru fs with
          | error e =>
              rw [hwf] at h
              exact Except.noConfusion (show Except.error e = Except.ok w from h)
          | ok gs =>
              rw [hwf] at h
              have hgs := walkFields_noUnres m ru fs gs hwf hfs
              have hw : (if ru then cleanUpLinks (.obj gs) else .obj gs) = w := by
                have h' : Except.ok (if ru then cleanUpLinks (.obj gs) else .obj gs) =
                  Except.ok w := h
                injection h'
              subst hw
              cases ru with
              | false =>
                  have hok : noUnres (JValue.obj gs) = true := by
                    simpa [noUnres] using hgs.1 rfl
                  exact ⟨fun _ => hok, fun _ => hok, Or.inr hok⟩
              | true =>
                  have hok : noUnres (cleanUpLinks (JValue.obj gs)) = true := by
                    show noUnres (.obj (gs.filter _)) = true
                    simp only [noUnres]
                    apply noUnresFields_of_mem
                    intro kv hkv
                    have hmem := List.mem_filter.mp hkv
                    rcases hgs.2 kv hmem.1 with hu | hnu
                    · rw [hu] at hmem
                      exact absurd hmem.2 (by simp [keepVal])
                    · exact hnu
                  rw [if_pos rfl]
                  refine ⟨?_, fun _ => hok, Or.inr hok⟩
                  intro hf
                  simp at hf

theorem walkList_noUnres (m : List (String × Nat)) (ru : Bool) :
    ∀ xs ys, walkList isLinkNode (fun l => normalizeLink m l ru) ru xs = .ok ys →
      noUnresList xs = true →
      (ru = false → noUnresList ys = true) ∧
      (∀ y ∈ ys, y = .unres ∨ noUnres y = true)
  | [], ys, h, _ => by
      have hw : ([] : List JValue) = ys := by injection h
      subst hw
      exact ⟨fun _ => rfl, fun y hy => absurd hy (by simp)⟩
  | x :: xs, ys, h, h2 => by
      rw [noUnresList, Bool.and_eq_true] at h2
      rw [walkList] at h
      cases hw : walkMutate isLinkNode (fun l => normalizeLink m l ru) ru x with
      | error e =>
          rw [hw] at h
          exact Except.noConfusion (show Except.error e = Except.ok ys from h)
      | ok y =>
          rw [hw] at h
          cases hws : walkList isLinkNode (fun l => normalizeLink m l ru) ru xs with
          | error e =>
              rw [hws] at h
              exact Except.noConfusion (show Except.error e = Except.ok ys from h)
          | ok ys' =>
              rw [hws] at h
              have hys : y :: ys' = ys := by
                have h' : Except.ok (y :: ys') = Except.ok ys := h
                injection h'
              subst hys
              have hx := walkMutate_noUnres m ru x y hw h2.1
              have hxs := walkList_noUnres m ru xs ys' hws h2.2
              constructor
              · intro hru
                rw [noUnresList, Bool.and_eq_true]
                exact ⟨hx.1 hru, hxs.1 hru⟩
              · intro z hz
                rcases List.mem_cons.mp hz with h1 | h1
                · subst h1
                  exact hx.2.2
                · exact hxs.2 z h1

theorem walkFields_noUnres (m : List (String × Nat)) (ru : Bool) :
    ∀ fs gs, walkFields isLinkNode (fun l => normalizeLink m l ru) ru fs = .ok gs →
      noUnresFields fs = true →
      (ru = false → noUnresFields gs = true) ∧
      (∀ kv ∈ gs, kv.2 = .unres ∨ noUnres kv.2 = true)
  | [], gs, h, _ => by
      have hw : ([] : List (String × JValue)) = gs := by injection h
      subst hw
      exact ⟨fun _ => rfl, fun kv hkv => absurd hkv (by simp)⟩
  | (k, x) :: fs, gs, h, h2 => by
      rw [noUnresFields, Bool.and_eq_true] at h2
      rw [walkFields] at h
      cases hw : walkMutate isLinkNode (fun l => normalizeLink m l ru) ru x with
      | error e =>
          rw [hw] at h
          exact Except.noConfusion (show Except.error e = Except.ok gs from h)
      | ok y =>
          rw [hw] at h
          cases hws : walkFields isLinkNode (fun l => normalizeLink m l ru) ru fs with
          | error e =>
              rw [hws] at h
              exact Except.noConfusion (show Except.error e = Except.ok gs from h)
          | ok gs' =>
              rw [hws] at h
              have hgs : (k, y) :: gs' = gs := by
                have h' : Except.ok ((k, y) :: gs') = Except.ok gs := h
                injection h'
              subst hgs
              have hx := walkMutate_noUnres m ru x y hw h2.1
              have hfs := walkFields_noUnres m ru fs gs' hws h2.2
              constructor
              · intro hru
                rw [noUnresFields, Bool.and_eq_true]
                exact ⟨hx.1 hru, hfs.1 hru⟩
              · intro kv hkv
                rcases List.mem_cons.mp hkv with h1 | h1
                · subst h1
                  exact hx.2.2
                · exact hfs.2 kv h1
end

theorem processOne_noUnres {m : List (String × Nat)} {ru : Bool}
    {eps : Option (List String)} {arena arena' : List JValue} {i : Nat}
    (ha : ∀ e ∈ arena, noUnres e = true)
    (h : processOne m ru eps arena i = .ok arena') :
    ∀ e ∈ arena', noUnres e = true := by
  unfold processOne at h
  cases hg : arena.get? i with
  | none =>
      rw [hg] at h
      have harena : arena = arena' := by
        have h' : Except.ok arena = Except.ok arena' := h
        injection h'
      subst harena
      exact ha
  | some item =>
      rw [hg] at h
      have hitem : noUnres item = true := ha item (List.get?_mem hg)
      have heo : noUnres (makeEntryObject item eps) = true :=
        makeEntryObject_noUnres eps hitem
      cases eps with
      | none =>
          have h2 : (do
              let walked ← walkMutate isLinkNode (fun l => normalizeLink m l ru) ru
                (makeEntryObject item none)
              Except.ok (arena.set i
                (if isLinkNode item then objAssign arena item walked else walked))) =
              Except.ok arena' := h
          cases hw : walkMutate isLinkNode (fun l => normalizeLink m l ru) ru
              (makeEntryObject item none) with
          | error e =>
              rw [hw] at h2
              exact Except.noConfusion (show Except.error e = Except.ok arena' from h2)
          | ok w =>
              rw [hw] at h2
              have hwp := walkMutate_noUnres m ru (makeEntryObject item none) w hw heo
              have hnew : noUnres
                  (if isLinkNode item then objAssign arena item w else w) = true := by
                cases hp : isLinkNode item with
                | true =>
                    rw [if_pos rfl]
                    exact objAssign_noUnres ha hitem hwp.2.2
                | false =>
                    rw [if_neg (by simp)]
                    exact hwp.2.1 hp
              have hset : arena.set i
                  (if isLinkNode item then objAssign arena item w else w) = arena' := by
                have h' : Except.ok (arena.set i
                    (if isLinkNode item then objAssign arena item w else w)) =
                    Except.ok arena' := h2
                injection h'
              intro e he
              rw [← hset] at he
              rcases List.mem_or_eq_of_mem_set he with h1 | h1
              · exact ha e h1
              · rw [h1]
                exact hnew
      | some ks =>
          have h2 : (do
              let walked ← walkMutate isLinkNode (fun l => normalizeLink m l ru) ru
                (makeEntryObject item (some ks))
              Except.ok (arena.set i (objAssign arena item walked))) =
              Except.ok arena' := h
          cases hw : walkMutate isLinkNode (fun l => normalizeLink m l ru) ru
              (makeEntryObject item (some ks)) with
          | error e =>
              rw [hw] at h2
              exact Except.noConfusion (show Except.error e = Except.ok arena' from h2)
          | ok w =>
              rw [hw] at h2
              have hwp := walkMutate_noUnres m ru (makeEntryObject item (some ks)) w hw heo
              have hnew : noUnres (objAssign arena item w) = true :=
                objAssign_noUnres ha hitem hwp.2.2
              have hset : arena.set i (objAssign arena item w) = arena' := by
                have h' : Except.ok (arena.set i (objAssign arena item w)) =
                    Except.ok arena' := h2
                injection h'
              intro e he
              rw [← hset] at he
              rcases List.mem_or_eq_of_mem_set he with h1 | h1
              · exact ha e h1
              · rw [h1]
                exact hnew

theorem runPass_noUnres {m : List (String × Nat)} {ru : Bool}
    {eps : Option (List String)} :
    ∀ {idxs : List Nat} {arena arena' : List JValue},
      (∀ e ∈ arena, noUnres e = true) →
      runPass m ru eps idxs arena = .ok arena' →
      ∀ e ∈ arena', noUnres e = true := by
  intro idxs
  induction idxs with
  | nil =>
      intro arena arena' ha h
      have : arena = arena' := by
        have h' : Except.ok arena = Except.ok arena' := h
        injection h'
      subst this
      exact ha
  | cons i is ih =>
      intro arena arena' ha h
      rw [runPass] at h
      cases hp : processOne m ru eps arena i with
      | error e =>
          rw [hp] at h
          exact absurd h (fun he =>
            Except.noConfusion (show Except.error e = Except.ok arena' from he))
      | ok arena1 =>
          rw [hp] at h
          exact ih (processOne_noUnres ha hp) h

theorem takeItems_noUnres :
    ∀ {its arena : List JValue},
      (∀ e ∈ its, noUnres e = true) → (∀ e ∈ arena, noUnres e = true) →
      ∀ v ∈ takeItems its arena, noUnres v = true := by
  intro its
  induction its with
  | nil => intro arena _ _ v hv; simp [takeItems] at hv
  | cons it its ih =>
      intro arena hi ha v hv
      unfold takeItems at hv
      by_cases hs : hasSys it
      · rw [if_pos hs] at hv
        cases arena with
        | nil =>
            rcases List.mem_cons.mp hv with h1 | h1
            · rw [h1]; exact hi it (List.mem_cons_self _ _)
            · exact ih (fun e he => hi e (List.mem_cons_of_mem _ he))
                (fun e he => absurd he (by simp)) v h1
        | cons a rest =>
            rcases List.mem_cons.mp hv with h1 | h1
            · rw [h1]; exact ha a (List.mem_cons_self _ _)
            · exact ih (fun e he => hi e (List.mem_cons_of_mem _ he))
                (fun e he => ha e (List.mem_cons_of_mem _ he)) v h1
      · rw [if_neg hs] at hv
        rcases List.mem_cons.mp hv with h1 | h1
        · rw [h1]; exact hi it (List.mem_cons_self _ _)
        · exact ih (fun e he => hi e (List.mem_cons_of_mem _ he)) ha v h1

theorem allEntriesOf_noUnres {r : ContentfulResponse}
    (hitems : ∀ v ∈ r.items.getD [], noUnres v = true)
    (hincl : ∀ kv ∈ r.includes, ∀ v ∈ kv.2, noUnres v = true) :
    ∀ e ∈ allEntriesOf r, noUnres e = true := by
  intro e he
  have he' := (List.mem_filter.mp he).1
  rcases List.mem_append.mp he' with h1 | h1
  · exact hitems e h1
  · rw [List.mem_flatMap] at h1
    obtain ⟨kv, hkv, hv⟩ := h1
    exact hincl kv hkv e hv

/-- The sentinel-freedom invariant at the public boundary. -/
theorem resolveResponse_noUnres {r : ContentfulResponse} {opts : ResolveOptions}
    {res : ResolveResult}
    (hitems : ∀ v ∈ r.items.getD [], noUnres v = true)
    (hincl : ∀ kv ∈ r.includes, ∀ v ∈ kv.2, noUnres v = true)
    (h : resolveResponse r opts = .ok res) :
    (∀ v ∈ res.items, noUnres v = true) ∧
    (∀ e ∈ res.entries, noUnres e = true) := by
  cases hits : r.items with
  | none =>
      rw [resolveResponse, hits] at h
      have hres : (⟨[], []⟩ : ResolveResult) = res := by
        have h' : Except.ok (⟨[], []⟩ : ResolveResult) = Except.ok res := h
        injection h'
      subst hres
      exact ⟨fun v hv => absurd hv (by simp), fun e he => absurd he (by simp)⟩
  | some its =>
      obtain ⟨final, hrun, hform⟩ := resolveResponse_ok_inv hits h
      subst hform
      have harena := allEntriesOf_noUnres hitems hincl
      have hfinal := runPass_noUnres harena hrun
      refine ⟨?_, hfinal⟩
      apply takeItems_noUnres ?_ hfinal
      intro e he
      apply hitems
      rw [hits]
      exact he

/-- Assembles a single-record resolution from its `processOne` computation. -/
theorem resolveResponse_single {item newItem : JValue} {ru : Bool}
    {eps : Option (List String)}
    (hs : hasSys item = true)
    (hp : processOne (entityMapOf ⟨some [item], []⟩) ru eps [item] 0 =
      .ok [newItem]) :
    resolveResponse ⟨some [item], []⟩
      { removeUnresolved := ru, itemEntryPoints := eps } =
      .ok ⟨[newItem], [newItem]⟩ := by
  have hAE : allEntriesOf (⟨some [item], []⟩ : ContentfulResponse) = [item] := by
    show List.filter hasSys ([item] ++ []) = [item]
    rw [List.append_nil, List.filter_cons, hs]
    rfl
  have hrun : runPass (buildEM 0 [item]) ru eps [0] [item] = .ok [newItem] := by
    rw [runPass]
    rw [show entityMapOf (⟨some [item], []⟩ : ContentfulResponse) =
        buildEM 0 [item] from by
      show buildEM 0 (allEntriesOf _) = _
      rw [hAE]] at hp
    rw [hp]
    rfl
  have hfinal := @resolveResponse_of_runPass ⟨some [item], []⟩
    { removeUnresolved := ru, itemEntryPoints := eps } [item] [newItem]
    rfl
    (by rw [hAE]; exact hrun)
  rw [hfinal]
  have htake : takeItems [item] [newItem] = [newItem] := by
    simp [takeItems, hs]
  rw [htake]

theorem processOne_deadlink_prune {sysv l : JValue} {m : List (String × Nat)}
    (hlf : linkFree sysv = true) (hnu : noUnres sysv = true)
    (hpi : isLinkNode (.obj [("sys", sysv), ("f", l)]) = false)
    (hl : isLinkNode l = true)
    (hres : getResolvedLink m l = .ok .unres) :
    processOne m true none [.obj [("sys", sysv), ("f", l)]] 0 =
      .ok [.obj [("sys", sysv)]] := by
  have hwl : walkMutate isLinkNode (fun x => normalizeLink m x true) true l =
      .ok .unres := by
    rw [walkMutate_pred hl]
    show normalizeLink m l true = _
    simp only [normalizeLink, hres]
    rfl
  have hwsys := walkMutate_linkFree (fun x => normalizeLink m x true) true sysv hlf hnu
  have hwf : walkFields isLinkNode (fun x => normalizeLink m x true) true
      [("sys", sysv), ("f", l)] = .ok [("sys", sysv), ("f", JValue.unres)] := by
    rw [walkFields, hwsys]
    rw [show walkFields isLinkNode (fun x => normalizeLink m x true) true [("f", l)] =
        .ok [("f", JValue.unres)] from by rw [walkFields, hwl]; rfl]
    rfl
  have hk : keepVal sysv = true :=
    (cleanup_keep_iff sysv).mpr (noUnres_ne_unres hnu)
  have hclean : cleanUpLinks (.obj [("sys", sysv), ("f", JValue.unres)]) =
      .obj [("sys", sysv)] := by
    show JValue.obj (List.filter _ _) = _
    rw [List.filter_cons, List.filter_cons]
    simp only [hk]
    rfl
  have hwitem : walkMutate isLinkNode (fun x => normalizeLink m x true) true
      (.obj [("sys", sysv), ("f", l)]) = .ok (.obj [("sys", sysv)]) := by
    rw [walkMutate_obj_not_pred hpi, hwf]
    show Except.ok (if true then cleanUpLinks (.obj [("sys", sysv), ("f", JValue.unres)])
      else _) = _
    rw [if_pos rfl, hclean]
  show (do
    let walked ← walkMutate isLinkNode (fun x => normalizeLink m x true) true
      (makeEntryObject (.obj [("sys", sysv), ("f", l)]) none)
    Except.ok (List.set [JValue.obj [("sys", sysv), ("f", l)]] 0
      (if isLinkNode (.obj [("sys", sysv), ("f", l)]) then
        objAssign [.obj [("sys", sysv), ("f", l)]] (.obj [("sys", sysv), ("f", l)]) walked
      else walked))) = _
  rw [show makeEntryObject (.obj [("sys", sysv), ("f", l)]) none =
    .obj [("sys", sysv), ("f", l)] from rfl, hwitem]
  rw [hpi]
  rfl

theorem processOne_deadlink_keep {sysv l : JValue} {m : List (String × Nat)}
    (hlf : linkFree sysv = true) (hnu : noUnres sysv = true)
    (hpi : isLinkNode (.obj [("sys", sysv), ("f", l)]) = false)
    (hl : isLinkNode l = true)
    (hres : getResolvedLink m l = .ok .unres) :
    processOne m false none [.obj [("sys", sysv), ("f", l)]] 0 =
      .ok [.obj [("sys", sysv), ("f", l)]] := by
  have hwl : walkMutate isLinkNode (fun x => normalizeLink m x false) false l =
      .ok l := by
    rw [walkMutate_pred hl]
    show normalizeLink m l false = _
    simp only [normalizeLink, hres]
    rfl
  have hwsys := walkMutate_linkFree (fun x => normalizeLink m x false) false sysv hlf hnu
  have hwf : walkFields isLinkNode (fun x => normalizeLink m x false) false
      [("sys", sysv), ("f", l)] = .ok [("sys", sysv), ("f", l)] := by
    rw [walkFields, hwsys]
    rw [show walkFields isLinkNode (fun x => normalizeLink m x false) false [("f", l)] =
        .ok [("f", l)] from by rw [walkFields, hwl]; rfl]
    rfl
  have hwitem : walkMutate isLinkNode (fun x => normalizeLink m x false) false
      (.obj [("sys", sysv), ("f", l)]) = .ok (.obj [("sys", sysv), ("f", l)]) := by
    rw [walkMutate_obj_not_pred hpi, hwf]
    rfl
  show (do
    let walked ← walkMutate isLinkNode (fun x => normalizeLink m x false) false
      (makeEntryObject (.obj [("sys", sysv), ("f", l)]) none)
    Except.ok (List.set [JValue.obj [("sys", sysv), ("f", l)]] 0
      (if isLinkNode (.obj [("sys", sysv), ("f", l)]) then
        objAssign [.obj [("sys", sysv), ("f", l)]] (.obj [("sys", sysv), ("f", l)]) walked
      else walked))) = _
  rw [show makeEntryObject (.obj [("sys", sysv), ("f", l)]) none =
    .obj [("sys", sysv), ("f", l)] from rfl, hwitem]
  rw [hpi]
  rfl

theorem processOne_deadlink_proj {sysv l : JValue} {m : List (String × Nat)}
    (hl : isLinkNode l = true)
    (hres : getResolvedLink m l = .ok .unres) :
    processOne m true (some ["f"]) [.obj [("sys", sysv), ("f", l)]] 0 =
      .ok [.obj [("sys", sysv), ("f", l)]] := by
  have hwl : walkMutate isLinkNode (fun x => normalizeLink m x true) true l =
      .ok .unres := by
    rw [walkMutate_pred hl]
    show normalizeLink m l true = _
    simp only [normalizeLink, hres]
    rfl
  have heo : makeEntryObject (.obj [("sys", sysv), ("f", l)]) (some ["f"]) =
      .obj [("f", l)] := rfl
  have hwf : walkFields isLinkNode (fun x => normalizeLink m x true) true
      [("f", l)] = .ok [("f", JValue.unres)] := by
    rw [walkFields, hwl]
    rfl
  have hweo : walkMutate isLinkNode (fun x => normalizeLink m x true) true
      (.obj [("f", l)]) = .ok (.obj []) := by
    rw [walkMutate_obj_not_pred (by rfl), hwf]
    rfl
  show (do
    let walked ← walkMutate isLinkNode (fun x => normalizeLink m x true) true
      (makeEntryObject (.obj [("sys", sysv), ("f", l)]) (some ["f"]))
    Except.ok (List.set [JValue.obj [("sys", sysv), ("f", l)]] 0
      (objAssign [.obj [("sys", sysv), ("f", l)]] (.obj [("sys", sysv), ("f", l)])
        walked))) = _
  rw [heo, hweo]
  rfl

/-- Claim C3 (amended): (1) the Unresolved sentinel never appears in the
returned items nor in any resolved record, for every response (whose values,
coming from outside the module, cannot contain the private sentinel) and
options; (2) with `removeUnresolved: true` an array keeps its resolvable
links, in order, and drops the unresolvable one; (3) with
`removeUnresolved: true` and no `itemEntryPoints`, an object field holding
an unresolvable link is deleted; (4) with `removeUnresolved: false` the
original link placeholder is left in place untouched; (5) — the correction —
with `itemEntryPoints` supplied, a top-level projected field holding an
unresolvable link is *not* deleted from the record: the record keeps the
original placeholder, because the deletion happens on the projected
sub-object and `Object.assign` cannot copy a deletion back. -/
theorem C3_amended :
    (∀ (r : ContentfulResponse) (opts : ResolveOptions) (res : ResolveResult),
      (∀ v ∈ r.items.getD [], noUnres v = true) →
      (∀ kv ∈ r.includes, ∀ v ∈ kv.2, noUnres v = true) →
      resolveResponse r opts = .ok res →
      (∀ v ∈ res.items, noUnres v = true) ∧
      (∀ e ∈ res.entries, noUnres e = true)) ∧
    (∀ (m : List (String × Nat)) (l1 l2 l3 : JValue) (i1 i3 : Nat),
      isLinkNode l1 = true → isLinkNode l2 = true → isLinkNode l3 = true →
      getResolvedLink m l1 = .ok (.entry i1) →
      getResolvedLink m l2 = .ok .unres →
      getResolvedLink m l3 = .ok (.entry i3) →
      walkMutate isLinkNode (fun l => normalizeLink m l true) true
        (.arr [l1, l2, l3]) = .ok (.arr [.entry i1, .entry i3])) ∧
    (∀ sysv l : JValue, truthy (some sysv) = true → linkFree sysv = true →
      noUnres sysv = true →
      isLinkNode (.obj [("sys", sysv), ("f", l)]) = false →
      isLinkNode l = true →
      getResolvedLink (entityMapOf ⟨some [.obj [("sys", sysv), ("f", l)]], []⟩) l
        = .ok .unres →
      resolveResponse ⟨some [.obj [("sys", sysv), ("f", l)]], []⟩
        { removeUnresolved := true, itemEntryPoints := none } =
        .ok ⟨[.obj [("sys", sysv)]], [.obj [("sys", sysv)]]⟩) ∧
    (∀ sysv l : JValue, truthy (some sysv) = true → linkFree sysv = true →
      noUnres sysv = true →
      isLinkNode (.obj [("sys", sysv), ("f", l)]) = false →
      isLinkNode l = true →
      getResolvedLink (entityMapOf ⟨some [.obj [("sys", sysv), ("f", l)]], []⟩) l
        = .ok .unres →
      resolveResponse ⟨some [.obj [("sys", sysv), ("f", l)]], []⟩
        { removeUnresolved := false, itemEntryPoints := none } =
        .ok ⟨[.obj [("sys", sysv), ("f", l)]], [.obj [("sys", sysv), ("f", l)]]⟩) ∧
    (∀ sysv l : JValue, truthy (some sysv) = true → isLinkNode l = true →
      getResolvedLink (entityMapOf ⟨some [.obj [("sys", sysv), ("f", l)]], []⟩) l
        = .ok .unres →
      resolveResponse ⟨some [.obj [("sys", sysv), ("f", l)]], []⟩
        { removeUnresolved := true, itemEntryPoints := some ["f"] } =
        .ok ⟨[.obj [("sys", sysv), ("f", l)]], [.obj [("sys", sysv), ("f", l)]]⟩) := by
  refine ⟨?_, ?_, ?_, ?_, ?_⟩
  · intro r opts res h1 h2 h3
    exact resolveResponse_noUnres h1 h2 h3
  · intro m l1 l2 l3 i1 i3 hp1 hp2 hp3 hr1 hr2 hr3
    have hw1 : walkMutate isLinkNode (fun l => normalizeLink m l true) true l1 =
        .ok (.entry i1) := by
      rw [walkMutate_pred hp1]
      show normalizeLink m l1 true = _
      simp only [normalizeLink, hr1]
      rfl
    have hw2 : walkMutate isLinkNode (fun l => normalizeLink m l true) true l2 =
        .ok .unres := by
      rw [walkMutate_pred hp2]
      show normalizeLink m l2 true = _
      simp only [normalizeLink, hr2]
      rfl
    have hw3 : walkMutate isLinkNode (fun l => normalizeLink m l true) true l3 =
        .ok (.entry i3) := by
      rw [walkMutate_pred hp3]
      show normalizeLink m l3 true = _
      simp only [normalizeLink, hr3]
      rfl
    rw [walkMutate_arr_not_pred (by rfl)]
    rw [show walkList isLinkNode (fun l => normalizeLink m l true) true [l1, l2, l3] =
        .ok [.entry i1, .unres, .entry i3] from by
      rw [walkList, hw1]
      rw [show walkList isLinkNode (fun l => normalizeLink m l true) true [l2, l3] =
          .ok [.unres, .entry i3] from by
        rw [walkList, hw2]
        rw [show walkList isLinkNode (fun l => normalizeLink m l true) true [l3] =
            .ok [.entry i3] from by rw [walkList, hw3]; rfl]
        rfl]
      rfl]
    rfl
  · intro sysv l ht hlf hnu hpi hl hres
    exact resolveResponse_single
      (show hasSys (.obj [("sys", sysv), ("f", l)]) = true from ht)
      (processOne_deadlink_prune hlf hnu hpi hl hres)
  · intro sysv l ht hlf hnu hpi hl hres
    exact resolveResponse_single
      (show hasSys (.obj [("sys", sysv), ("f", l)]) = true from ht)
      (processOne_deadlink_keep hlf hnu hpi hl hres)
  · intro sysv l ht hl hres
    exact resolveResponse_single
      (show hasSys (.obj [("sys", sysv), ("f", l)]) = true from ht)
      (processOne_deadlink_proj hl hres)

def c3wItem : JValue := .obj [("sys", mkSysJV "Entry" "z"), ("f", mkLinkJV "Entry" "zz")]
def c3wResponse : ContentfulResponse := ⟨some [c3wItem], []⟩
def c3wOut : JValue := .obj [("sys", mkSysJV "Entry" "z")]

/-- Claim C3 witness: the amended theorem applied to a concrete one-record
response with an unresolvable link — the field is pruned, and the pruned
output carries no sentinel. -/
theorem C3_witness :
    resolveResponse c3wResponse
      { removeUnresolved := true, itemEntryPoints := none } =
      .ok ⟨[c3wOut], [c3wOut]⟩ ∧
    noUnres c3wOut = true := by
  constructor
  · exact (C3_amended.2.2.1 (mkSysJV "Entry" "z") (mkLinkJV "Entry" "zz")
      (by decide) (by decide) (by decide) (by decide) (by decide) (by decide))
  · exact ((C3_amended.1 c3wResponse
      { removeUnresolved := true, itemEntryPoints := none } ⟨[c3wOut], [c3wOut]⟩
      (by decide) (by decide) (by decide)).1 c3wOut (by decide))

theorem projStep_mem {item : JValue} :
    ∀ (ks : List String) (acc : List (String × JValue)) (kv : String × JValue),
      kv ∈ ks.foldl (projStep item) acc →
      kv ∈ acc ∨ (kv.1 ∈ ks ∧ jsGet item kv.1 = some kv.2) := by
  intro ks
  induction ks with
  | nil => intro acc kv h; exact Or.inl h
  | cons k ks ih =>
      intro acc kv h
      have h' : kv ∈ ks.foldl (projStep item) (projStep item acc k) := h
      rcases ih (projStep item acc k) kv h' with h1 | h1
      · unfold projStep at h1
        cases hk : jsGet item k with
        | none =>
            rw [hk] at h1
            exact Or.inl h1
        | some v =>
            rw [hk] at h1
            rcases List.mem_append.mp h1 with h2 | h2
            · exact Or.inl h2
            · have hkv : kv = (k, v) := by simpa using h2
              subst hkv
              exact Or.inr ⟨List.mem_cons_self _ _, hk⟩
      · exact Or.inr ⟨List.mem_cons_of_mem _ h1.1, h1.2⟩

/-- Reading a field off the projected sub-object: the key was listed in the
entry points and holds exactly the item's value — fields absent on the item
are skipped, never defaulted, and nothing outside the list appears. -/
theorem makeEntryObject_proj_get {item : JValue} {ks : List String}
    {key : String} {v : JValue}
    (h : jsGet (makeEntryObject item (some ks)) key = some v) :
    key ∈ ks ∧ jsGet item key = some v := by
  have hmem : (key, v) ∈ ks.foldl (projStep item) [] :=
    lookupField_mem (show lookupField _ key = some v from h)
  rcases projStep_mem ks [] (key, v) hmem with h1 | h1
  · exact absurd h1 (by simp)
  · exact h1

theorem processOne_proj_frame {sysv lf vg : JValue} {m : List (String × Nat)}
    {ru : Bool} {j : Nat}
    (hl : isLinkNode lf = true)
    (hres : getResolvedLink m lf = .ok (.entry j)) :
    processOne m ru (some ["f"]) [.obj [("sys", sysv), ("f", lf), ("g", vg)]] 0 =
      .ok [.obj [("sys", sysv), ("f", .entry j), ("g", vg)]] := by
  have hwl : walkMutate isLinkNode (fun x => normalizeLink m x ru) ru lf =
      .ok (.entry j) := by
    rw [walkMutate_pred hl]
    show normalizeLink m lf ru = _
    simp only [normalizeLink, hres]
    rfl
  have heo : makeEntryObject (.obj [("sys", sysv), ("f", lf), ("g", vg)])
      (some ["f"]) = .obj [("f", lf)] := rfl
  have hwf : walkFields isLinkNode (fun x => normalizeLink m x ru) ru
      [("f", lf)] = .ok [("f", JValue.entry j)] := by
    rw [walkFields, hwl]
    rfl
  have hweo : walkMutate isLinkNode (fun x => normalizeLink m x ru) ru
      (.obj [("f", lf)]) = .ok (.obj [("f", JValue.entry j)]) := by
    rw [walkMutate_obj_not_pred (by rfl), hwf]
    show Except.ok (if ru then cleanUpLinks (.obj [("f", JValue.entry j)])
      else .obj [("f", JValue.entry j)]) = _
    cases ru with
    | false => rfl
    | true => rfl
  show (do
    let walked ← walkMutate isLinkNode (fun x => normalizeLink m x ru) ru
      (makeEntryObject (.obj [("sys", sysv), ("f", lf), ("g", vg)]) (some ["f"]))
    Except.ok (List.set [JValue.obj [("sys", sysv), ("f", lf), ("g", vg)]] 0
      (objAssign [.obj [("sys", sysv), ("f", lf), ("g", vg)]]
        (.obj [("sys", sysv), ("f", lf), ("g", vg)]) walked))) = _
  rw [heo, hweo]
  rfl

theorem resolveResponse_keys_single {fs : List (String × JValue)}
    {res : ResolveResult}
    (hs : hasSys (.obj fs) = true)
    (h : resolveResponse ⟨some [.obj fs], []⟩
      { removeUnresolved := false, itemEntryPoints := none } = .ok res) :
    ∃ gs, res.items = [.obj gs] ∧
      ∀ key ∈ fs.map Prod.fst, key ∈ gs.map Prod.fst := by
  have hAE : allEntriesOf (⟨some [.obj fs], []⟩ : ContentfulResponse) =
      [.obj fs] := by
    show List.filter hasSys ([.obj fs] ++ []) = [.obj fs]
    rw [List.append_nil, List.filter_cons, hs]
    rfl
  obtain ⟨final, hrun, hform⟩ := resolveResponse_ok_inv rfl h
  rw [hAE] at hrun
  have hrun2 : runPass (buildEM 0 [JValue.obj fs]) false none [0] [.obj fs] =
      .ok final := hrun
  rw [runPass] at hrun2
  cases hp : processOne (buildEM 0 [JValue.obj fs]) false none [.obj fs] 0 with
  | error e =>
      rw [hp] at hrun2
      exact absurd hrun2 (fun hh =>
        Except.noConfusion (show Except.error e = Except.ok final from hh))
  | ok arena1 =>
      rw [hp] at hrun2
      have hfin : arena1 = final := by
        have h' : Except.ok arena1 = Except.ok final := hrun2
        injection h'
      subst hfin
      have hp2 : (do
          let walked ← walkMutate isLinkNode
            (fun l => normalizeLink (buildEM 0 [JValue.obj fs]) l false) false
            (.obj fs)
          Except.ok (List.set [JValue.obj fs] 0
            (if isLinkNode (.obj fs) then
              objAssign [.obj fs] (.obj fs) walked else walked))) =
          .ok arena1 := hp
      cases hw : walkMutate isLinkNode
          (fun l => normalizeLink (buildEM 0 [JValue.obj fs]) l false) false
          (.obj fs) with
      | error e =>
          rw [hw] at hp2
          exact absurd hp2 (fun hh =>
            Except.noConfusion (show Except.error e = Except.ok arena1 from hh))
      | ok w =>
          rw [hw] at hp2
          have hfin2 : [(if isLinkNode (.obj fs) then
              objAssign [.obj fs] (.obj fs) w else w)] = arena1 := by
            have h' : Except.ok (List.set [JValue.obj fs] 0
                (if isLinkNode (.obj fs) then
                  objAssign [.obj fs] (.obj fs) w else w)) =
                Except.ok arena1 := hp2
            injection h'
          have hnew : ∃ gs, (if isLinkNode (.obj fs) then
              objAssign [.obj fs] (.obj fs) w else w) = .obj gs ∧
              ∀ key ∈ fs.map Prod.fst, key ∈ gs.map Prod.fst := by
            cases hpred : isLinkNode (.obj fs) with
            | false =>
                rw [if_neg (by simp)]
                rw [walkMutate_obj_not_pred hpred] at hw
                cases hwf : walkFields isLinkNode
                    (fun l => normalizeLink (buildEM 0 [JValue.obj fs]) l false)
                    false fs with
                | error e =>
                    rw [hwf] at hw
                    exact absurd hw (fun hh =>
                      Except.noConfusion (show Except.error e = Except.ok w from hh))
                | ok gs =>
                    rw [hwf] at hw
                    have hwgs : JValue.obj gs = w := by
                      have h' : Except.ok (JValue.obj gs) = Except.ok w := hw
                      injection h'
                    refine ⟨gs, hwgs.symm, ?_⟩
                    intro key hkey
                    rw [walkFields_keys hwf]
                    exact hkey
            | true =>
                rw [if_pos rfl]
                rw [walkMutate_pred hpred] at hw
                rcases normalizeLink_shape hw with ⟨hru, _⟩ | hwv | ⟨i, hwv⟩
                · exact absurd hru (by simp)
                · subst hwv
                  refine ⟨mergeFields fs fs, rfl, ?_⟩
                  intro key hkey
                  exact mergeFields_keys_superset hkey
                · subst hwv
                  show ∃ gs, (match List.get? [JValue.obj fs] i with
                    | some (.obj sf) => JValue.obj (mergeFields fs sf)
                    | _ => JValue.obj fs) = .obj gs ∧ _
                  cases hg : List.get? [JValue.obj fs] i with
                  | none =>
                      exact ⟨fs, rfl, fun key hk => hk⟩
                  | some e =>
                      cases e with
                      | obj sf =>
                          refine ⟨mergeFields fs sf, rfl, ?_⟩
                          intro key hkey
                          exact mergeFields_keys_superset hkey
                      | null => exact ⟨fs, rfl, fun key hk => hk⟩
                      | bool b => exact ⟨fs, rfl, fun key hk => hk⟩
                      | num n => exact ⟨fs, rfl, fun key hk => hk⟩
                      | str s => exact ⟨fs, rfl, fun key hk => hk⟩
                      | arr xs => exact ⟨fs, rfl, fun key hk => hk⟩
                      | entry ii => exact ⟨fs, rfl, fun key hk => hk⟩
                      | unres => exact ⟨fs, rfl, fun key hk => hk⟩
          obtain ⟨gs, hgs, hkeys⟩ := hnew
          refine ⟨gs, ?_, hkeys⟩
          rw [hform]
          show takeItems [JValue.obj fs] arena1 = [JValue.obj gs]
          rw [← hfin2, hgs]
          simp [takeItems, hs]

/-- Claim C9 (amended): (1) without `itemEntryPoints` the projector is the
identity, so all fields of every record are walked; (2) with
`itemEntryPoints`, the projected sub-object holds exactly the listed fields
present on the record, with the record's own values (absent names are
skipped, not defaulted); (3) only the listed fields are resolved: a link in
any other top-level field is left completely unchanged, whatever it is, and
the record keeps all its top-level keys (even with `removeUnresolved`
set, since deletions hit only the projected sub-object); (4) — the
correction — without `itemEntryPoints`, the record is guaranteed to retain
all of its original top-level keys only when `removeUnresolved` is false
(with it true, fields holding unresolvable links are deleted, see the
counterexample). -/
theorem C9_amended :
    (∀ item : JValue, makeEntryObject item none = item) ∧
    (∀ (item : JValue) (ks : List String) (key : String) (v : JValue),
      jsGet (makeEntryObject item (some ks)) key = some v →
      key ∈ ks ∧ jsGet item key = some v) ∧
    (∀ (sysv lf vg : JValue) (ru : Bool) (j : Nat),
      truthy (some sysv) = true →
      isLinkNode lf = true →
      getResolvedLink
        (entityMapOf ⟨some [.obj [("sys", sysv), ("f", lf), ("g", vg)]], []⟩) lf =
        .ok (.entry j) →
      resolveResponse ⟨some [.obj [("sys", sysv), ("f", lf), ("g", vg)]], []⟩
        { removeUnresolved := ru, itemEntryPoints := some ["f"] } =
        .ok ⟨[.obj [("sys", sysv), ("f", .entry j), ("g", vg)]],
             [.obj [("sys", sysv), ("f", .entry j), ("g", vg)]]⟩) ∧
    (∀ (fs : List (String × JValue)) (res : ResolveResult),
      hasSys (.obj fs) = true →
      resolveResponse ⟨some [.obj fs], []⟩
        { removeUnresolved := false, itemEntryPoints := none } = .ok res →
      ∃ gs, res.items = [.obj gs] ∧
        ∀ key ∈ fs.map Prod.fst, key ∈ gs.map Prod.fst) := by
  refine ⟨fun _ => rfl, ?_, ?_, ?_⟩
  · intro item ks key v h
    exact makeEntryObject_proj_get h
  · intro sysv lf vg ru j ht hl hres
    exact resolveResponse_single
      (show hasSys (.obj [("sys", sysv), ("f", lf), ("g", vg)]) = true from ht)
      (processOne_proj_frame hl hres)
  · intro fs res hs h
    exact resolveResponse_keys_single hs h

def c9wItem : JValue :=
  .obj [("sys", mkSysJV "Entry" "p"), ("f", mkLinkJV "Entry" "p"),
    ("g", mkLinkJV "Entry" "x")]
def c9wOut : JValue :=
  .obj [("sys", mkSysJV "Entry" "p"), ("f", .entry 0), ("g", mkLinkJV "Entry" "x")]

/-- Claim C9 witness: the amended theorem applied to a record with
`itemEntryPoints := ['f']`: the listed field resolves (here to the record
itself), the unlisted field `g` keeps its raw link node even though
`removeUnresolved` is set, and all three keys survive. -/
theorem C9_witness :
    resolveResponse ⟨some [c9wItem], []⟩
      { removeUnresolved := true, itemEntryPoints := some ["f"] } =
      .ok ⟨[c9wOut], [c9wOut]⟩ :=
  C9_amended.2.2.1 (mkSysJV "Entry" "p") (mkLinkJV "Entry" "p")
    (mkLinkJV "Entry" "x") true 0 (by decide) (by decide) (by decide)

/-!
## Fixed points of a second resolution pass
-/

theorem hasSys_obj {e : JValue} (h : hasSys e = true) : ∃ fs, e = .obj fs := by
  cases e with
  | obj fs => exact ⟨fs, rfl⟩
  | null => exact absurd h (by decide)
  | bool b => exact absurd h (by simp [hasSys, jsGet, truthy])
  | num n => exact absurd h (by simp [hasSys, jsGet, truthy])
  | str s => exact absurd h (by simp [hasSys, jsGet, truthy])
  | arr xs => exact absurd h (by simp [hasSys, jsGet, truthy])
  | entry i => exact absurd h (by simp [hasSys, jsGet, truthy])
  | unres => exact absurd h (by simp [hasSys, jsGet, truthy])

theorem set_get_eq {α : Type} : ∀ (l : List α) (i : Nat) (a : α),
    l.get? i = some a → l.set i a = l := by
  intro l
  induction l with
  | nil => intro i a h; simp at h
  | cons x xs ih =>
      intro i a h
      cases i with
      | zero =>
          have : x = a := by simpa using h
          subst this
          rfl
      | succ n =>
          simp only [List.get?_cons_succ] at h
          show x :: xs.set n a = x :: xs
          rw [ih n a h]

theorem takeItems_filter : ∀ its : List JValue,
    takeItems its (its.filter hasSys) = its := by
  intro its
  induction its with
  | nil => rfl
  | cons it its ih =>
      rw [List.filter_cons]
      cases hs : hasSys it with
      | true =>
          rw [if_pos (by simp)]
          unfold takeItems
          rw [if_pos hs]
          show it :: takeItems its (List.filter hasSys its) = it :: its
          rw [ih]
      | false =>
          rw [if_neg (by simp)]
          unfold takeItems
          rw [if_neg (by simp [hs])]
          rw [ih]

theorem linkFreeFields_mem : ∀ {fs : List (String × JValue)},
    linkFreeFields fs = true → ∀ kv ∈ fs, linkFree kv.2 = true := by
  intro fs
  induction fs with
  | nil => intro _ kv hkv; simp at hkv
  | cons p ps ih =>
      intro h kv hkv
      obtain ⟨k, v⟩ := p
      rw [linkFreeFields, Bool.and_eq_true] at h
      rcases List.mem_cons.mp hkv with h1 | h1
      · exact h1 ▸ h.1
      · exact ih h.2 kv h1

theorem allLinksMissFields_mem {m : List (String × Nat)} :
    ∀ {fs : List (String × JValue)},
      allLinksMissFields m fs = true → ∀ kv ∈ fs, allLinksMiss m kv.2 = true := by
  intro fs
  induction fs with
  | nil => intro _ kv hkv; simp at hkv
  | cons p ps ih =>
      intro h kv hkv
      obtain ⟨k, v⟩ := p
      rw [allLinksMissFields, Bool.and_eq_true] at h
      rcases List.mem_cons.mp hkv with h1 | h1
      · exact h1 ▸ h.1
      · exact ih h.2 kv h1

theorem isLinkNode_sys_congr {a b : JValue}
    (h : jsGet a "sys" = jsGet b "sys") : isLinkNode a = isLinkNode b := by
  unfold isLinkNode isLink isResourceLink
  rw [h]

theorem isLinkNode_noSys {a : JValue} (h : jsGet a "sys" = none) :
    isLinkNode a = false := by
  unfold isLinkNode isLink isResourceLink
  rw [h]
  rfl

theorem getResolvedLink_sys_congr {m : List (String × Nat)} {a b : JValue}
    (h : jsGet a "sys" = jsGet b "sys") :
    getResolvedLink m a = getResolvedLink m b := by
  unfold getResolvedLink
  rw [h]

theorem lookupField_of_nodup :
    ∀ {fs : List (String × JValue)} {k : String} {v : JValue},
      (fs.map Prod.fst).Nodup → (k, v) ∈ fs → lookupField fs k = some v := by
  intro fs
  induction fs with
  | nil => intro k v _ h; simp at h
  | cons p ps ih =>
      intro k v hnd h
      obtain ⟨k', v'⟩ := p
      rw [List.map_cons, List.nodup_cons] at hnd
      rcases List.mem_cons.mp h with h1 | h1
      · have hk : k' = k ∧ v' = v := by
          have := h1
          simp only [Prod.mk.injEq] at this
          exact ⟨this.1.symm, this.2.symm⟩
        rw [lookupField, if_pos hk.1, hk.2]
      · have hk : k' ≠ k := by
          intro he
          subst he
          exact hnd.1 (List.mem_map.mpr ⟨(k', v), h1, rfl⟩)
        rw [lookupField, if_neg hk]
        exact ih hnd.2 h1

mutual
/-- With pruning off, a value all of whose link nodes miss the index is a
fixed point of the walker: every matched node resolves to the sentinel and
`normalizeLink` hands the original placeholder back. -/
theorem walkMutate_allMiss (m : List (String × Nat)) :
    ∀ v, allLinksMiss m v = true →
      walkMutate isLinkNode (fun l => normalizeLink m l false) false v = .ok v
  | .null, _ => rfl
  | .bool b, _ => rfl
  | .num n, _ => rfl
  | .str s, _ => rfl
  | .entry i, _ => rfl
  | .unres, _ => rfl
  | .arr xs, h => by
      have hxs : allLinksMissList m xs = true := by
        simpa [allLinksMiss] using h
      rw [walkMutate_arr_not_pred (by rfl),
        walkList_allMiss m xs hxs]
      rfl
  | .obj fs, h => by
      cases hp : isLinkNode (.obj fs) with
      | true =>
          have hres : getResolvedLink m (.obj fs) = .ok .unres := by
            rw [allLinksMiss, hp] at h
            simp only [if_true] at h
            cases hr : getResolvedLink m (.obj fs) with
            | error e => rw [hr] at h; simp at h
            | ok w =>
                rw [hr] at h
                cases w with
                | unres => rfl
                | null => simp at h
                | bool b => simp at h
                | num n => simp at h
                | str s => simp at h
                | arr xs => simp at h
                | obj gs => simp at h
                | entry i => simp at h
          rw [walkMutate_pred hp]
          show normalizeLink m (.obj fs) false = _
          simp only [normalizeLink, hres]
          rfl
      | false =>
          have hfs : allLinksMissFields m fs = true := by
            rw [allLinksMiss, hp] at h
            simpa using h
          rw [walkMutate_obj_not_pred hp, walkFields_allMiss m fs hfs]
          rfl

theorem walkList_allMiss (m : List (String × Nat)) :
    ∀ xs, allLinksMissList m xs = true →
      walkList isLinkNode (fun l => normalizeLink m l false) false xs = .ok xs
  | [], _ => rfl
  | x :: xs, h => by
      rw [allLinksMissList, Bool.and_eq_true] at h
      rw [walkList, walkMutate_allMiss m x h.1, walkList_allMiss m xs h.2]
      rfl

theorem walkFields_allMiss (m : List (String × Nat)) :
    ∀ fs, allLinksMissFields m fs = true →
      walkFields isLinkNode (fun l => normalizeLink m l false) false fs = .ok fs
  | [], _ => rfl
  | (k, x) :: fs, h => by
      rw [allLinksMissFields, Bool.and_eq_true] at h
      rw [walkFields, walkMutate_allMiss m x h.1, walkFields_allMiss m fs h.2]
      rfl
end

theorem linkFreeFields_of_mem : ∀ {fs : List (String × JValue)},
    (∀ kv ∈ fs, linkFree kv.2 = true) → linkFreeFields fs = true := by
  intro fs
  induction fs with
  | nil => intro _; rfl
  | cons p ps ih =>
      intro h
      obtain ⟨k, v⟩ := p
      rw [linkFreeFields, Bool.and_eq_true]
      exact ⟨h (k, v) (List.mem_cons_self _ _),
        ih (fun kv hkv => h kv (List.mem_cons_of_mem _ hkv))⟩

theorem allLinksMiss_pred {m : List (String × Nat)} {v : JValue}
    (hp : isLinkNode v = true) (h : allLinksMiss m v = true) :
    getResolvedLink m v = .ok .unres := by
  cases v with
  | obj fs =>
      rw [allLinksMiss, hp] at h
      simp only [if_true] at h
      cases hr : getResolvedLink m (.obj fs) with
      | error e => rw [hr] at h; simp at h
      | ok w =>
          rw [hr] at h
          cases w with
          | unres => rfl
          | null => simp at h
          | bool b => simp at h
          | num n => simp at h
          | str s => simp at h
          | arr xs => simp at h
          | obj gs => simp at h
          | entry i => simp at h
  | null => exact absurd hp (by decide)
  | bool b => exact absurd hp (by simp [isLinkNode, isLink, isResourceLink, jsGet])
  | num n => exact absurd hp (by simp [isLinkNode, isLink, isResourceLink, jsGet])
  | str s => exact absurd hp (by simp [isLinkNode, isLink, isResourceLink, jsGet])
  | arr xs => exact absurd hp (by simp [isLinkNode, isLink, isResourceLink, jsGet])
  | entry i => exact absurd hp (by simp [isLinkNode, isLink, isResourceLink, jsGet])
  | unres => exact absurd hp (by simp [isLinkNode, isLink, isResourceLink, jsGet])

theorem processOne_get_none {m : List (String × Nat)} {ru : Bool}
    {eps : Option (List String)} {arena : List JValue} {i : Nat}
    (hg : arena.get? i = none) : processOne m ru eps arena i = .ok arena := by
  unfold processOne
  rw [hg]

theorem processOne_fixed_miss {m : List (String × Nat)} {arena : List JValue}
    {i : Nat} {item : JValue}
    (hget : arena.get? i = some item)
    (hobj : ∃ tf, item = .obj tf)
    (hnd : uniqKeys item = true)
    (ham : allLinksMiss m item = true) :
    processOne m false none arena i = .ok arena := by
  obtain ⟨tf, rfl⟩ := hobj
  unfold processOne
  rw [hget]
  show (do
    let walked ← walkMutate isLinkNode (fun l => normalizeLink m l false) false
      (makeEntryObject (.obj tf) none)
    Except.ok (arena.set i
      (if isLinkNode (.obj tf) then objAssign arena (.obj tf) walked
        else walked))) = _
  rw [show makeEntryObject (.obj tf) none = .obj tf from rfl]
  cases hp : isLinkNode (.obj tf) with
  | false =>
      rw [walkMutate_allMiss m (.obj tf) ham]
      show Except.ok (arena.set i (JValue.obj tf)) = Except.ok arena
      rw [set_get_eq arena i _ hget]
  | true =>
      have hres := allLinksMiss_pred hp ham
      have hwalk : walkMutate isLinkNode (fun l => normalizeLink m l false) false
          (.obj tf) = .ok (.obj tf) := by
        rw [walkMutate_pred hp]
        show normalizeLink m (.obj tf) false = _
        simp only [normalizeLink, hres]
        rfl
      rw [hwalk]
      have hmerge : objAssign arena (.obj tf) (.obj tf) = .obj tf := by
        show JValue.obj (mergeFields tf tf) = _
        rw [mergeFields_self (fun kv hkv =>
          lookupField_of_nodup (by
            have := hnd
            rw [uniqKeys, Bool.and_eq_true] at this
            simpa using this.1) hkv)]
      show Except.ok (arena.set i (objAssign arena (.obj tf) (.obj tf))) =
        Except.ok arena
      rw [hmerge, set_get_eq arena i _ hget]

theorem processOne_fixed_linkFree {m : List (String × Nat)} {ru : Bool}
    {eps : Option (List String)} {arena : List JValue} {i : Nat} {item : JValue}
    (hget : arena.get? i = some item)
    (hobj : ∃ tf, item = .obj tf)
    (hlf : linkFree item = true) (hnu : noUnres item = true) :
    processOne m ru eps arena i = .ok arena := by
  obtain ⟨tf, rfl⟩ := hobj
  have hlf' : (!isLinkNode (.obj tf) && linkFreeFields tf) = true := hlf
  rw [Bool.and_eq_true] at hlf'
  have hpF : isLinkNode (.obj tf) = false := by simpa using hlf'.1
  have hffs : linkFreeFields tf = true := hlf'.2
  have hnufs : noUnresFields tf = true := by simpa [noUnres] using hnu
  unfold processOne
  rw [hget]
  cases eps with
  | none =>
      show (do
        let walked ← walkMutate isLinkNode (fun l => normalizeLink m l ru) ru
          (makeEntryObject (.obj tf) none)
        Except.ok (arena.set i
          (if isLinkNode (.obj tf) then objAssign arena (.obj tf) walked
            else walked))) = _
      rw [show makeEntryObject (.obj tf) none = .obj tf from rfl,
        walkMutate_linkFree _ ru (.obj tf) hlf hnu, hpF]
      show Except.ok (arena.set i (JValue.obj tf)) = Except.ok arena
      rw [set_get_eq arena i _ hget]
  | some ks =>
      have hvals : ∀ kv ∈ List.foldl (projStep (JValue.obj tf)) [] ks,
          lookupField tf kv.1 = some kv.2 := by
        intro kv hkv
        rcases projStep_mem ks [] kv hkv with h1 | h1
        · exact absurd h1 (by simp)
        · exact h1.2
      have hlfP : linkFreeFields (List.foldl (projStep (JValue.obj tf)) [] ks) =
          true := by
        apply linkFreeFields_of_mem
        intro kv hkv
        exact linkFreeFields_mem hffs _ (lookupField_mem (hvals kv hkv))
      have hnuP : noUnresFields (List.foldl (projStep (JValue.obj tf)) [] ks) =
          true := by
        apply noUnresFields_of_mem
        intro kv hkv
        exact noUnresFields_mem hnufs _ (lookupField_mem (hvals kv hkv))
      have hpfPred :
          isLinkNode (.obj (List.foldl (projStep (JValue.obj tf)) [] ks)) =
            false := by
        cases hsys : jsGet (.obj (List.foldl (projStep (JValue.obj tf)) [] ks))
            "sys" with
        | none => exact isLinkNode_noSys hsys
        | some sv =>
            have h2 : jsGet (.obj tf) "sys" = some sv :=
              (makeEntryObject_proj_get (show jsGet
                (makeEntryObject (.obj tf) (some ks)) "sys" = some sv from hsys)).2
            rw [isLinkNode_sys_congr (show jsGet
              (.obj (List.foldl (projStep (JValue.obj tf)) [] ks)) "sys" =
              jsGet (.obj tf) "sys" from by rw [hsys, h2])]
            exact hpF
      have hlfObj : linkFree (.obj (List.foldl (projStep (JValue.obj tf)) [] ks)) =
          true := by
        show (!isLinkNode (.obj (List.foldl (projStep (JValue.obj tf)) [] ks)) &&
          linkFreeFields (List.foldl (projStep (JValue.obj tf)) [] ks)) = true
        rw [hpfPred, hlfP]
        rfl
      have hnuObj : noUnres (.obj (List.foldl (projStep (JValue.obj tf)) [] ks)) =
          true := hnuP
      show (do
        let walked ← walkMutate isLinkNode (fun l => normalizeLink m l ru) ru
          (makeEntryObject (.obj tf) (some ks))
        Except.ok (arena.set i (objAssign arena (.obj tf) walked))) = _
      rw [show makeEntryObject (.obj tf) (some ks) =
        .obj (List.foldl (projStep (JValue.obj tf)) [] ks) from rfl]
      rw [walkMutate_linkFree _ ru _ hlfObj hnuObj]
      show Except.ok (arena.set i (objAssign arena (.obj tf)
        (.obj (List.foldl (projStep (JValue.obj tf)) [] ks)))) = _
      rw [show objAssign arena (.obj tf)
          (.obj (List.foldl (projStep (JValue.obj tf)) [] ks)) = .obj tf from by
        show JValue.obj (mergeFields tf _) = _
        rw [mergeFields_self hvals]]
      rw [set_get_eq arena i _ hget]

theorem runPass_fixed {m : List (String × Nat)} {ru : Bool}
    {eps : Option (List String)} {arena : List JValue}
    (h : ∀ i, processOne m ru eps arena i = .ok arena) :
    ∀ idxs, runPass m ru eps idxs arena = .ok arena := by
  intro idxs
  induction idxs with
  | nil => rfl
  | cons i is ih =>
      rw [runPass, h i]
      exact ih

/-- Claim C6 (amended): a second resolution pass is a no-op only under
conditions that a first pass does not always establish (see the
counterexample, where a resolved link-shaped record is re-matched by the
link predicate, misses the rebuilt index — the includes having been
discarded — and is deleted by the pruning pass).  What holds is: (1) with
`removeUnresolved: false` and no `itemEntryPoints`, a response whose items'
link nodes all miss its entity index — as the unresolved placeholders kept
by a first pass do — is returned entirely unchanged; (2) a response whose
items contain no link-predicate nodes at all (the spec's "resolved records
no longer match the link predicate") is returned unchanged for *every*
options combination. -/
theorem C6_amended :
    (∀ its : List JValue,
      (∀ v ∈ its, allLinksMiss (entityMapOf ⟨some its, []⟩) v = true) →
      (∀ v ∈ its, uniqKeys v = true) →
      resolveResponse ⟨some its, []⟩
        { removeUnresolved := false, itemEntryPoints := none } =
        .ok ⟨allEntriesOf ⟨some its, []⟩, its⟩) ∧
    (∀ (its : List JValue) (ru : Bool) (eps : Option (List String)),
      (∀ v ∈ its, linkFree v = true) →
      (∀ v ∈ its, noUnres v = true) →
      resolveResponse ⟨some its, []⟩
        { removeUnresolved := ru, itemEntryPoints := eps } =
        .ok ⟨allEntriesOf ⟨some its, []⟩, its⟩) := by
  constructor
  · intro its hmiss hnd
    have hAE : allEntriesOf (⟨some its, []⟩ : ContentfulResponse) =
        its.filter hasSys := by
      show (its ++ ([] : List JValue)).filter hasSys = its.filter hasSys
      rw [List.append_nil]
    have hproc : ∀ i, processOne
        (buildEM 0 (allEntriesOf (⟨some its, []⟩ : ContentfulResponse)))
        false none (allEntriesOf (⟨some its, []⟩ : ContentfulResponse)) i =
        .ok (allEntriesOf (⟨some its, []⟩ : ContentfulResponse)) := by
      intro i
      cases hg : (allEntriesOf (⟨some its, []⟩ : ContentfulResponse)).get? i with
      | none => exact processOne_get_none hg
      | some item =>
          have hmemF := List.get?_mem hg
          rw [hAE] at hmemF
          have hmem := List.mem_filter.mp hmemF
          exact processOne_fixed_miss hg (hasSys_obj hmem.2)
            (hnd item hmem.1) (hmiss item hmem.1)
    have hres := @resolveResponse_of_runPass ⟨some its, []⟩
      { removeUnresolved := false, itemEntryPoints := none } its
      (allEntriesOf (⟨some its, []⟩ : ContentfulResponse)) rfl
      (runPass_fixed hproc _)
    rw [hres]
    rw [show takeItems its (allEntriesOf (⟨some its, []⟩ : ContentfulResponse)) =
      its from by rw [hAE]; exact takeItems_filter its]
  · intro its ru eps hlf hnu
    have hAE : allEntriesOf (⟨some its, []⟩ : ContentfulResponse) =
        its.filter hasSys := by
      show (its ++ ([] : List JValue)).filter hasSys = its.filter hasSys
      rw [List.append_nil]
    have hproc : ∀ i, processOne
        (buildEM 0 (allEntriesOf (⟨some its, []⟩ : ContentfulResponse)))
        ru eps (allEntriesOf (⟨some its, []⟩ : ContentfulResponse)) i =
        .ok (allEntriesOf (⟨some its, []⟩ : ContentfulResponse)) := by
      intro i
      cases hg : (allEntriesOf (⟨some its, []⟩ : ContentfulResponse)).get? i with
      | none => exact processOne_get_none hg
      | some item =>
          have hmemF := List.get?_mem hg
          rw [hAE] at hmemF
          have hmem := List.mem_filter.mp hmemF
          exact processOne_fixed_linkFree hg (hasSys_obj hmem.2)
            (hlf item hmem.1) (hnu item hmem.1)
    have hres := @resolveResponse_of_runPass ⟨some its, []⟩
      { removeUnresolved := ru, itemEntryPoints := eps } its
      (allEntriesOf (⟨some its, []⟩ : ContentfulResponse)) rfl
      (runPass_fixed hproc _)
    rw [hres]
    rw [show takeItems its (allEntriesOf (⟨some its, []⟩ : ContentfulResponse)) =
      its from by rw [hAE]; exact takeItems_filter its]

def c6wItem : JValue :=
  .obj [("sys", mkSysJV "Entry" "w6"), ("f", mkLinkJV "Entry" "missing6")]

/-- Claim C6 witness: the amended theorem applied to a one-record response
whose only link misses the index — a second pass with pruning off returns
it unchanged. -/
theorem C6_witness :
    resolveResponse ⟨some [c6wItem], []⟩
      { removeUnresolved := false, itemEntryPoints := none } =
      .ok ⟨allEntriesOf ⟨some [c6wItem], []⟩, [c6wItem]⟩ :=
  C6_amended.1 [c6wItem] (by decide) (by decide)

theorem string_eq_of_data {a b : String} (h : a.data = b.data) : a = b := by
  cases a
  cases b
  exact congrArg String.mk h

theorem isPrefixOf_iff_ex : ∀ {l₁ l₂ : List Char},
    l₁.isPrefixOf l₂ = true ↔ ∃ t, l₂ = l₁ ++ t := by
  intro l₁
  induction l₁ with
  | nil =>
      intro l₂
      simp [List.isPrefixOf]
  | cons a as ih =>
      intro l₂
      cases l₂ with
      | nil =>
          simp [List.isPrefixOf]
      | cons b bs =>
          show (a == b && as.isPrefixOf bs) = true ↔ _
          rw [Bool.and_eq_true, beq_iff_eq, ih]
          constructor
          · rintro ⟨hab, t, ht⟩
            exact ⟨t, by rw [hab, ht]; rfl⟩
          · rintro ⟨t, ht⟩
            have h1 : b = a ∧ bs = as ++ t := by
              have := ht
              rw [List.cons_append] at this
              exact ⟨by injection this, by injection this⟩
            exact ⟨h1.1.symm, t, h1.2⟩

theorem cands_spec : ∀ (l : List Char) (p t : List Char),
    (p, t) ∈ cands l ↔ l = p ++ patChars ++ t := by
  intro l
  induction l with
  | nil =>
      intro p t
      simp only [cands, List.not_mem_nil, false_iff]
      intro h
      have : ([] : List Char).length = (p ++ patChars ++ t).length :=
        congrArg List.length h
      simp [patChars] at this
      omega
  | cons c cs ih =>
      intro p t
      rw [cands]
      by_cases hpre : patChars.isPrefixOf (c :: cs) = true
      · rw [if_pos hpre]
        constructor
        · intro h
          rcases List.mem_cons.mp h with h1 | h1
          · have hp : p = [] ∧ t = (c :: cs).drop patChars.length := by
              have := h1
              exact ⟨congrArg Prod.fst this, congrArg Prod.snd this⟩
            obtain ⟨rfl, rfl⟩ := hp
            obtain ⟨r, hr⟩ := isPrefixOf_iff_ex.mp hpre
            rw [hr, List.nil_append, List.drop_left]
          · obtain ⟨⟨p', t'⟩, hmem, heq⟩ := List.mem_map.mp h1
            have hp : p = c :: p' ∧ t = t' := by
              exact ⟨(congrArg Prod.fst heq).symm, (congrArg Prod.snd heq).symm⟩
            obtain ⟨rfl, rfl⟩ := hp
            have := (ih p' t).mp hmem
            rw [List.cons_append, List.cons_append, this]
        · intro h
          cases p with
          | nil =>
              apply List.mem_cons.mpr
              left
              rw [List.nil_append] at h
              rw [h, List.drop_left]
          | cons p0 ps =>
              apply List.mem_cons.mpr
              right
              rw [List.cons_append, List.cons_append] at h
              injection h with hc hcs
              apply List.mem_map.mpr
              exact ⟨(ps, t), (ih ps t).mpr hcs, by rw [hc]⟩
      · rw [if_neg hpre]
        constructor
        · intro h
          obtain ⟨⟨p', t'⟩, hmem, heq⟩ := List.mem_map.mp h
          have hp : p = c :: p' ∧ t = t' :=
            ⟨(congrArg Prod.fst heq).symm, (congrArg Prod.snd heq).symm⟩
          obtain ⟨rfl, rfl⟩ := hp
          have := (ih p' t).mp hmem
          rw [List.cons_append, List.cons_append, this]
        · intro h
          cases p with
          | nil =>
              exfalso
              apply hpre
              apply isPrefixOf_iff_ex.mpr
              rw [List.nil_append] at h
              exact ⟨t, h⟩
          | cons p0 ps =>
              rw [List.cons_append, List.cons_append] at h
              injection h with hc hcs
              apply List.mem_map.mpr
              exact ⟨(ps, t), (ih ps t).mpr hcs, by rw [hc]⟩

/-- Joins segments with `'/'`: the left inverse of `splitSeg`. -/
def joinSlash : List (List Char) → List Char
  | [] => []
  | [s] => s
  | s :: t :: ss => s ++ '/' :: joinSlash (t :: ss)

theorem splitSeg_ne_nil : ∀ l : List Char, splitSeg l ≠ [] := by
  intro l
  cases l with
  | nil => simp [splitSeg]
  | cons c cs =>
      rw [splitSeg]
      by_cases hc : c = '/'
      · rw [if_pos hc]
        simp
      · rw [if_neg hc]
        cases hss : splitSeg cs with
        | nil => simp
        | cons s ss => simp

theorem splitSeg_join : ∀ l : List Char, joinSlash (splitSeg l) = l := by
  intro l
  induction l with
  | nil => rfl
  | cons c cs ih =>
      rw [splitSeg]
      by_cases hc : c = '/'
      · rw [if_pos hc]
        cases hss : splitSeg cs with
        | nil => exact absurd hss (splitSeg_ne_nil cs)
        | cons s ss =>
            rw [hss] at ih
            show [] ++ '/' :: joinSlash (s :: ss) = c :: cs
            rw [List.nil_append, ih, hc]
      · rw [if_neg hc]
        cases hss : splitSeg cs with
        | nil => exact absurd hss (splitSeg_ne_nil cs)
        | cons s ss =>
            rw [hss] at ih
            cases ss with
            | nil =>
                show c :: s = c :: cs
                rw [show joinSlash [s] = s from rfl] at ih
                rw [ih]
            | cons t ts =>
                show (c :: s) ++ '/' :: joinSlash (t :: ts) = c :: cs
                rw [List.cons_append]
                rw [show joinSlash (s :: t :: ts) = s ++ '/' :: joinSlash (t :: ts) from rfl] at ih
                rw [ih]

theorem splitSeg_noslash : ∀ l : List Char, ∀ s ∈ splitSeg l, '/' ∉ s := by
  intro l
  induction l with
  | nil =>
      intro s hs
      simp [splitSeg] at hs
      simp [hs]
  | cons c cs ih =>
      intro s hs
      rw [splitSeg] at hs
      by_cases hc : c = '/'
      · rw [if_pos hc] at hs
        rcases List.mem_cons.mp hs with h1 | h1
        · simp [h1]
        · exact ih s h1
      · rw [if_neg hc] at hs
        cases hss : splitSeg cs with
        | nil => exact absurd hss (splitSeg_ne_nil cs)
        | cons a as =>
            rw [hss] at hs
            rcases List.mem_cons.mp hs with h1 | h1
            · have ha := ih a (by rw [hss]; exact List.mem_cons_self a as)
              rw [h1]
              intro hmem
              rcases List.mem_cons.mp hmem with h2 | h2
              · exact hc h2.symm
              · exact ha h2
            · exact ih s (by rw [hss]; exact List.mem_cons_of_mem a h1)

theorem splitSeg_noslash_eq {a : List Char} (h : '/' ∉ a) : splitSeg a = [a] := by
  induction a with
  | nil => rfl
  | cons c cs ih =>
      rw [splitSeg]
      have hc : ¬ c = '/' := fun he => h (by rw [he]; exact List.mem_cons_self _ _)
      rw [if_neg hc]
      rw [ih (fun hm => h (List.mem_cons_of_mem c hm))]

theorem splitSeg_append {a : List Char} (r : List Char) (h : '/' ∉ a) :
    splitSeg (a ++ '/' :: r) = a :: splitSeg r := by
  induction a with
  | nil =>
      rw [List.nil_append, splitSeg, if_pos rfl]
  | cons c cs ih =>
      rw [List.cons_append, splitSeg]
      have hc : ¬ c = '/' := fun he => h (by rw [he]; exact List.mem_cons_self _ _)
      rw [if_neg hc]
      rw [ih (fun hm => h (List.mem_cons_of_mem c hm))]

theorem parseTail_mk3 {sid eid : List Char}
    (hs : sid ≠ []) (hsS : '/' ∉ sid) (he : eid ≠ []) (heS : '/' ∉ eid) :
    parseTail (sid ++ '/' :: (("entries").data ++ '/' :: eid)) =
      some ⟨String.mk sid, "master", String.mk eid⟩ := by
  have h1 : splitSeg (sid ++ '/' :: (("entries").data ++ '/' :: eid)) =
      [sid, ("entries").data, eid] := by
    rw [splitSeg_append _ hsS, splitSeg_append _ (by decide),
      splitSeg_noslash_eq heS]
  unfold parseTail
  rw [h1]
  exact if_pos ⟨hs, rfl, he⟩

theorem parseTail_mk5 {sid env eid : List Char}
    (hs : sid ≠ []) (hsS : '/' ∉ sid) (hv : env ≠ []) (hvS : '/' ∉ env)
    (he : eid ≠ []) (heS : '/' ∉ eid) :
    parseTail (sid ++ '/' :: (("environments").data ++ '/' ::
        (env ++ '/' :: (("entries").data ++ '/' :: eid)))) =
      some ⟨String.mk sid, String.mk env, String.mk eid⟩ := by
  have h1 : splitSeg (sid ++ '/' :: (("environments").data ++ '/' ::
      (env ++ '/' :: (("entries").data ++ '/' :: eid)))) =
      [sid, ("environments").data, env, ("entries").data, eid] := by
    rw [splitSeg_append _ hsS, splitSeg_append _ (by decide),
      splitSeg_append _ hvS, splitSeg_append _ (by decide),
      splitSeg_noslash_eq heS]
  unfold parseTail
  rw [h1]
  exact if_pos ⟨hs, rfl, hv, rfl, he⟩

/-- One `[^/]+` group of the regex: a non-empty, slash-free character run. -/
def segChars (x : List Char) : Prop := x ≠ [] ∧ '/' ∉ x

instance (x : List Char) : Decidable (segChars x) := by
  unfold segChars
  infer_instance

theorem parseTail_some_decomp {t : List Char} {ids : UrnIds}
    (h : parseTail t = some ids) :
    segChars ids.spaceId.data ∧ segChars ids.entryId.data ∧
    ((ids.environmentId = "master" ∧
        t = ids.spaceId.data ++ '/' ::
          (("entries").data ++ '/' :: ids.entryId.data)) ∨
      (segChars ids.environmentId.data ∧
        t = ids.spaceId.data ++ '/' :: (("environments").data ++ '/' ::
          (ids.environmentId.data ++ '/' ::
            (("entries").data ++ '/' :: ids.entryId.data))))) := by
  have hti := splitSeg_join t
  have htn := splitSeg_noslash t
  unfold parseTail at h
  split at h
  · rename_i sid mid eid heq
    split at h
    · rename_i hc
      obtain ⟨h1, h2, h3⟩ := hc
      cases h
      rw [heq] at hti htn
      refine ⟨⟨h1, htn sid (by simp)⟩, ⟨h3, htn eid (by simp)⟩, Or.inl ⟨rfl, ?_⟩⟩
      rw [← hti, h2]
      rfl
    · exact absurd h (by simp)
  · rename_i sid envLit env entLit eid heq
    split at h
    · rename_i hc
      obtain ⟨h1, h2, h3, h4, h5⟩ := hc
      cases h
      rw [heq] at hti htn
      refine ⟨⟨h1, htn sid (by simp)⟩, ⟨h5, htn eid (by simp)⟩,
        Or.inr ⟨⟨h3, htn env (by simp)⟩, ?_⟩⟩
      rw [← hti, h2, h4]
      rfl
    · exact absurd h (by simp)
  · exact absurd h (by simp)

/-- The claim's URN pattern, read literally:
`<prefix>:spaces/<spaceId>(/environments/<environmentId>)?/entries/<entryId>`
with each id a non-empty slash-free run and `environmentId` defaulting to
`'master'` when the environments segment is absent.  The prefix is
unconstrained here (spec side of the refinement). -/
def specUrnDecomp (s p : String) (ids : UrnIds) : Prop :=
  segChars ids.spaceId.data ∧ segChars ids.entryId.data ∧
  ((ids.environmentId = "master" ∧
      s.data = p.data ++ patChars ++
        (ids.spaceId.data ++ '/' :: (("entries").data ++ '/' :: ids.entryId.data))) ∨
    (segChars ids.environmentId.data ∧
      s.data = p.data ++ patChars ++
        (ids.spaceId.data ++ '/' :: (("environments").data ++ '/' ::
          (ids.environmentId.data ++ '/' ::
            (("entries").data ++ '/' :: ids.entryId.data))))))

instance (s p : String) (ids : UrnIds) : Decidable (specUrnDecomp s p ids) := by
  unfold specUrnDecomp
  infer_instance

/-- The pattern the code actually implements: as `specUrnDecomp`, but the
prefix (matched by `(.*)`, whose `.` excludes line terminators in
JavaScript) must be free of line terminators. -/
def specUrnDecompDot (s p : String) (ids : UrnIds) : Prop :=
  p.data.all (fun c => !isLineTerm c) = true ∧ specUrnDecomp s p ids

instance (s p : String) (ids : UrnIds) : Decidable (specUrnDecompDot s p ids) := by
  unfold specUrnDecompDot
  infer_instance

theorem getLast?_isSome_of_ne_nil {α : Type} : ∀ (l : List α),
    l ≠ [] → l.getLast?.isSome = true := by
  intro l
  induction l with
  | nil => intro h; exact absurd rfl h
  | cons a as ih =>
      intro _
      cases as with
      | nil => rfl
      | cons b bs =>
          rw [List.getLast?_cons_cons]
          exact ih (by simp)

theorem getIdsFromUrn_sound {s : String} {ids : UrnIds}
    (h : getIdsFromUrn s = some ids) : ∃ p, specUrnDecompDot s p ids := by
  unfold getIdsFromUrn at h
  have hmem := getLast?_some_mem h
  obtain ⟨⟨p, t⟩, hmemc, hpt⟩ := List.mem_filterMap.mp hmem
  split at hpt
  · rename_i hlt
    obtain ⟨hsp, hep, hor⟩ := parseTail_some_decomp hpt
    have hsd : s.data = p ++ patChars ++ t := (cands_spec s.data p t).mp hmemc
    refine ⟨String.mk p, hlt, hsp, hep, ?_⟩
    rcases hor with ⟨henv, ht⟩ | ⟨henv, ht⟩
    · exact Or.inl ⟨henv, by
        rw [hsd]
        exact congrArg (fun x => p ++ patChars ++ x) ht⟩
    · exact Or.inr ⟨henv, by
        rw [hsd]
        exact congrArg (fun x => p ++ patChars ++ x) ht⟩
  · exact absurd hpt (by simp)

theorem getIdsFromUrn_complete {s p : String} {ids : UrnIds}
    (h : specUrnDecompDot s p ids) : (getIdsFromUrn s).isSome = true := by
  obtain ⟨hdot, hsp, hep, hor⟩ := h
  have hids : ∃ t, (p.data, t) ∈ cands s.data ∧ parseTail t = some ids := by
    rcases hor with ⟨henv, ht⟩ | ⟨⟨hv1, hv2⟩, ht⟩
    · refine ⟨_, (cands_spec s.data p.data _).mpr ht, ?_⟩
      obtain ⟨a, b, c⟩ := ids
      cases henv
      exact parseTail_mk3 hsp.1 hsp.2 hep.1 hep.2
    · refine ⟨_, (cands_spec s.data p.data _).mpr ht, ?_⟩
      obtain ⟨a, b, c⟩ := ids
      exact parseTail_mk5 hsp.1 hsp.2 hv1 hv2 hep.1 hep.2
  obtain ⟨t, hmemc, hparse⟩ := hids
  have hmemF : ids ∈ (cands s.data).filterMap
      (fun pt => if pt.1.all (fun c => !isLineTerm c) then parseTail pt.2 else none) := by
    apply List.mem_filterMap.mpr
    refine ⟨(p.data, t), hmemc, ?_⟩
    show (if p.data.all (fun c => !isLineTerm c) then parseTail t else none) = some ids
    rw [if_pos hdot, hparse]
  unfold getIdsFromUrn
  exact getLast?_isSome_of_ne_nil _ (List.ne_nil_of_mem hmemF)

/-- Claim C5 counterexample: the URN `"a\nb:spaces/sid/entries/eid"` matches
the claim's pattern literally (prefix `"a\nb"`, spaceId `"sid"`, no
environments segment, entryId `"eid"`), yet the decoder returns the
no-result sentinel, because the JavaScript `.` of the `(.*)` prefix group
does not match the line terminator `'\n'`. -/
theorem C5_counterexample :
    specUrnDecomp ("a\nb:spaces/sid/entries/eid") ("a\nb")
      ⟨"sid", "master", "eid"⟩ ∧
    getIdsFromUrn ("a\nb:spaces/sid/entries/eid") = none := by
  constructor
  · decide
  · decide

/-- Claim C5 (amended): the decoder never throws (it is total, the `catch`
of lines 76-79 returning the sentinel), and for every input string it
returns ids exactly when the string matches the pattern
`<prefix>:spaces/<spaceId>(/environments/<environmentId>)?/entries/<entryId>`
with a prefix free of line terminators (JavaScript `.` excludes them):
the ids returned always admit such a decomposition (with environmentId
`'master'` when the environments segment is absent), every string
admitting such a decomposition decodes to some ids, and a string admitting
none decodes to the sentinel `undefined` (`none`). -/
theorem C5_amended (s : String) :
    (∀ ids, getIdsFromUrn s = some ids → ∃ p, specUrnDecompDot s p ids) ∧
    (∀ p ids, specUrnDecompDot s p ids → (getIdsFromUrn s).isSome = true) ∧
    ((∀ p ids, ¬ specUrnDecompDot s p ids) → getIdsFromUrn s = none) := by
  refine ⟨fun ids h => getIdsFromUrn_sound h,
    fun p ids h => getIdsFromUrn_complete h, fun hno => ?_⟩
  cases hv : getIdsFromUrn s with
  | none => rfl
  | some ids =>
      obtain ⟨p, hp⟩ := getIdsFromUrn_sound hv
      exact absurd hp (hno (String.mk p.data) ids)

/-- Witness for C5: applies the amended theorem's soundness half at a
URN with an environments segment, and its completeness half at one
without. -/
theorem C5_witness :
    (∃ p, specUrnDecompDot ("x:spaces/s1/environments/dev/entries/e1") p
        ⟨"s1", "dev", "e1"⟩) ∧
    (getIdsFromUrn ("a:spaces/sid/entries/eid")).isSome = true := by
  constructor
  · exact (C5_amended ("x:spaces/s1/environments/dev/entries/e1")).1
      ⟨"s1", "dev", "e1"⟩ (by decide)
  · exact (C5_amended ("a:spaces/sid/entries/eid")).2.1 "a"
      ⟨"sid", "master", "eid"⟩ (by decide)
